import Mathlib

/-!
# Verification of the FreeCell game engine

Shallow embedding of the game-state engine of `freecell-rs`
(`src/freecell.rs` and `src/freecell_game.rs`), together with theorems
settling the claims about its specification.

Rust machine integers (`u8`, `u32`, `usize`) are modelled as `Nat`; where an
unsigned subtraction can underflow (the `left -= 1` counter of `sweep_step`)
the embedding returns `Option` and yields `none` at the underflow, matching
the debug-build panic of the source.
-/

set_option maxHeartbeats 1000000

/-! ## Card model (`src/freecell.rs`) -/

inductive Suit where
  | Club
  | Diamond
  | Heart
  | Spade
deriving DecidableEq, Repr

inductive Color where
  | Black
  | Red
deriving DecidableEq, Repr

/-- A playing card; `value` models the `Face(u8)` newtype (1 = Ace .. 13 = King). -/
structure Card where
  suit : Suit
  value : Nat
deriving DecidableEq, Repr

def Suit.as_index : Suit → Nat
  | .Club => 0
  | .Diamond => 1
  | .Heart => 2
  | .Spade => 3

def Suit.color : Suit → Color
  | .Club => .Black
  | .Spade => .Black
  | .Heart => .Red
  | .Diamond => .Red

/-- `Card::can_top`: `self` may be placed atop `other` on the tableau
(one rank lower, opposite color).  `other.value - 1` is the `u8`
subtraction of the source, on `Nat`. -/
def Card.can_top (c other : Card) : Bool :=
  c.value == other.value - 1 && c.suit.color != other.suit.color

/-- `Card::can_succeed`: `self` may succeed the given foundation card
(or start the pile with an Ace when the slot is empty). -/
def Card.can_succeed (c : Card) (other : Option Card) : Bool :=
  match other with
  | some d => c.value == d.value + 1
  | none => c.value == 1

/-! ## The board (`struct FreeCell`)

The fixed-size arrays `[Option<Card>; 4]` (reserve) and `[Option<Card>; 4]`
(foundation) and the `Vec<Vec<Card>>` tableau are modelled as lists; the
well-formedness lengths (4, 4, 8) are carried as hypotheses where needed. -/

structure FreeCell where
  reserve : List (Option Card)
  foundation : List (Option Card)
  tableau : List (List Card)
deriving DecidableEq, Repr

instance : Inhabited FreeCell := ⟨⟨[], [], []⟩⟩

instance : Inhabited Card := ⟨⟨.Club, 0⟩⟩

/-- `FreeCell::foundation(suit)` (named `foundation_at` because `foundation`
is the field). -/
def FreeCell.foundation_at (fc : FreeCell) (s : Suit) : Option Card :=
  fc.foundation.getD s.as_index none

/-- `FreeCell::reserve(pos)` (named `reserve_at` because `reserve` is the field). -/
def FreeCell.reserve_at (fc : FreeCell) (pos : Nat) : Option Card :=
  fc.reserve.getD pos none

def FreeCell.can_move_to_tableau (fc : FreeCell) (card : Card) (pos : Nat) : Bool :=
  match (fc.tableau.getD pos []).getLast? with
  | some top => card.can_top top
  | none => true

/-- The body of `can_move_to_foundation`, factored over the foundation array
(the source method reads only `self.foundation`). -/
def can_succeed_found (f : List (Option Card)) (card : Card) : Bool :=
  card.can_succeed (f.getD card.suit.as_index none)

def FreeCell.can_move_to_foundation (fc : FreeCell) (card : Card) : Bool :=
  can_succeed_found fc.foundation card

/-- Rank currently on the foundation of suit `s` (`map_or(0, |c| c.value.0)`). -/
def foundation_value (f : List (Option Card)) (s : Suit) : Nat :=
  match f.getD s.as_index none with
  | some c => c.value
  | none => 0

/-- The body of `should_move_to_foundation`, factored over the foundation
array (the source method reads only `self.foundation`). -/
def foundation_should (f : List (Option Card)) (card : Card) : Bool :=
  if !can_succeed_found f card then false
  else
    let club_v := foundation_value f .Club
    let space_v := foundation_value f .Spade
    let diamond_v := foundation_value f .Diamond
    let heart_v := foundation_value f .Heart
    let min_black := min club_v space_v
    let min_red := min diamond_v heart_v
    if card.suit.color == Color.Black then
      decide (card.value ≤ min (min_black + 3) (min_red + 2))
    else
      decide (card.value ≤ min (min_red + 3) (min_black + 2))

def FreeCell.should_move_to_foundation (fc : FreeCell) (card : Card) : Bool :=
  foundation_should fc.foundation card

/-- `FreeCell::reserve_free`: whether any reserve slots are vacant. -/
def FreeCell.reserve_free (fc : FreeCell) : Bool :=
  fc.reserve.any (fun r => r.isNone)

/-- `FreeCell::game_over`: all four foundations hold a King. -/
def FreeCell.game_over (fc : FreeCell) : Bool :=
  fc.foundation.all (fun f => match f with | some c => c.value == 13 | none => false)

def FreeCell.add_to_foundation (fc : FreeCell) (card : Card) : FreeCell :=
  { fc with foundation := fc.foundation.set card.suit.as_index (some card) }

def FreeCell.add_to_tableau (fc : FreeCell) (card : Card) (pos : Nat) : FreeCell :=
  { fc with tableau := fc.tableau.set pos ((fc.tableau.getD pos []) ++ [card]) }

/-- `FreeCell::remove_reserve(pos)` (state part; the returned card is read via
`reserve_at` at call sites). -/
def FreeCell.remove_reserve (fc : FreeCell) (pos : Nat) : FreeCell :=
  { fc with reserve := fc.reserve.set pos none }

/-- Fill the lowest-indexed empty reserve slot (`add_to_reserve`'s
`iter_mut().find(|r| r.is_none())`). -/
def fill_first : List (Option Card) → Card → List (Option Card)
  | [], _ => []
  | none :: rest, c => some c :: rest
  | some d :: rest, c => some d :: fill_first rest c

def FreeCell.add_to_reserve (fc : FreeCell) (card : Card) : FreeCell :=
  { fc with reserve := fill_first fc.reserve card }

/-- `FreeCell::pop_tableau(pos)` (state part; the popped card is read via
`getLast?` at call sites). -/
def FreeCell.pop_tableau (fc : FreeCell) (pos : Nat) : FreeCell :=
  { fc with tableau := fc.tableau.set pos ((fc.tableau.getD pos []).dropLast) }

/-- `FreeCell::move_tableau_group(a, b, n)`: drain the top `n` cards of
column `a` and extend column `b` with them, preserving order. -/
def FreeCell.move_tableau_group (fc : FreeCell) (a b n : Nat) : FreeCell :=
  let col_a := fc.tableau.getD a []
  let col_b := fc.tableau.getD b []
  let start := col_a.length - n
  { fc with tableau :=
      (fc.tableau.set a (col_a.take start)).set b (col_b ++ col_a.drop start) }

/-- The loop of `group_size` on the reversed (top-first) column: count from
the top while each card can be placed atop the one below it. -/
def run_len : List Card → Nat
  | [] => 0
  | [_] => 1
  | a :: b :: rest => if a.can_top b then 1 + run_len (b :: rest) else 1

def FreeCell.group_size (fc : FreeCell) (pos : Nat) : Nat :=
  let slot := fc.tableau.getD pos []
  if slot.isEmpty then 0
  else if slot.length == 1 then 1
  else run_len slot.reverse

def FreeCell.move_capacity (fc : FreeCell) (a b : Nat) : Nat :=
  let n_empty0 := (fc.tableau.filter (fun t => t.isEmpty)).length
  let n_empty := if (fc.tableau.getD b []).isEmpty then n_empty0 - 1 else n_empty0
  let n_reserve := (fc.reserve.filter (fun r => r.isNone)).length
  min (fc.group_size a) ((n_reserve + 1) * 2 ^ n_empty)

/-! ## The automatic sweep (`FreeCell::sweep_step`)

The `u32` counter `left` is decremented once per moved card; a decrement at
`left = 0` underflows, so the embedding returns `none` there (debug-build
panic).  The reserve pass walks the (cloned) reserve slots left to right,
consulting the *current* foundation; it breaks as soon as `left` hits 0,
leaving the remaining slots untouched. -/

def sweep_reserve : List (Option Card) → List (Option Card) → Nat →
    Option (List (Option Card) × List (Option Card) × Nat)
  | [], f, left => some ([], f, left)
  | none :: rs, f, left =>
      (sweep_reserve rs f left).map (fun p => (none :: p.1, p.2.1, p.2.2))
  | some c :: rs, f, left =>
      if foundation_should f c then
        match left with
        | 0 => none
        | 1 => some (none :: rs, f.set c.suit.as_index (some c), 0)
        | m + 2 =>
            (sweep_reserve rs (f.set c.suit.as_index (some c)) (m + 1)).map
              (fun p => (none :: p.1, p.2.1, p.2.2))
      else
        (sweep_reserve rs f left).map (fun p => (some c :: p.1, p.2.1, p.2.2))

/-- The tableau indices whose top card passes `should_move_to_foundation`,
evaluated against the post-reserve-pass foundation (the iterator chain of the
source collects this list before any tableau move). -/
def sweep_list (t : List (List Card)) (f : List (Option Card)) : List Nat :=
  (List.range t.length).filter (fun i =>
    match (t.getD i []).getLast? with
    | some c => foundation_should f c
    | none => false)

/-- The tableau pass: pop each listed column's top onto its foundation. -/
def sweep_tab : List (List Card) → List (Option Card) → List Nat →
    List (List Card) × List (Option Card)
  | t, f, [] => (t, f)
  | t, f, i :: is =>
      match (t.getD i []).getLast? with
      | some c =>
          sweep_tab (t.set i (t.getD i []).dropLast) (f.set c.suit.as_index (some c)) is
      | none => sweep_tab t f is

def FreeCell.sweep_step (fc : FreeCell) (n : Nat) : Option (FreeCell × Bool) :=
  match sweep_reserve fc.reserve fc.foundation n with
  | none => none
  | some (rs, f1, left) =>
      if left ≠ 0 then
        let sw := (sweep_list fc.tableau f1).take left
        let p := sweep_tab fc.tableau f1 sw
        some (⟨rs, p.2, p.1⟩, decide (left - sw.length ≠ n))
      else
        some (⟨rs, f1, fc.tableau⟩, decide ((0 : Nat) ≠ n))

/-! ## The deal (`new_deck` / `fill_tableau`) -/

def suits_list : List Suit := [.Club, .Diamond, .Heart, .Spade]

def faces_list : List Nat := [1, 2, 3, 4, 5, 6, 7, 8, 9, 10, 11, 12, 13]

/-- The 52 standard cards, in the order `new_deck` creates them before
shuffling. -/
def full_deck_list : List Card :=
  (suits_list.map (fun s => faces_list.map (fun v => (⟨s, v⟩ : Card)))).flatten

/-- `fill_tableau`'s loop: push card `i` onto column `i % 8`. -/
def deal_round : List (List Card) → List Card → Nat → List (List Card)
  | t, [], _ => t
  | t, c :: cs, i => deal_round (t.set (i % 8) ((t.getD (i % 8) []) ++ [c])) cs (i + 1)

def fill_tableau (deck : List Card) : List (List Card) :=
  deal_round (List.replicate 8 []) deck 0

/-- A freshly dealt board (`FreeCell::new`), for a given shuffled deck. -/
def FreeCell.new (deck : List Card) : FreeCell :=
  ⟨List.replicate 4 none, List.replicate 4 none, fill_tableau deck⟩

/-! ## The session controller (`src/freecell_game.rs`)

Only the engine-relevant fields of `FreeCellGame` are modelled: the live
board `fc`, the undo log (field `undo` of the source, renamed `undo_log`
because `undo` is also the method name) and the cursor `undo_index`. -/

structure GameState where
  fc : FreeCell
  undo_log : List FreeCell
  undo_index : Nat
deriving DecidableEq, Repr

/-- `push_undo`: truncate the log at the cursor, append the live board,
move the cursor to the end. -/
def push_undo (g : GameState) : GameState :=
  { g with undo_log := g.undo_log.take g.undo_index ++ [g.fc],
           undo_index := (g.undo_log.take g.undo_index ++ [g.fc]).length }

/-- One successful mutating player command: `push_undo` followed by the
board mutation `m`. -/
def do_move (g : GameState) (m : FreeCell → FreeCell) : GameState :=
  let g1 := push_undo g
  { g1 with fc := m g1.fc }

/-- `FreeCellGame::undo` (the two message branches leave the state
unchanged). -/
def undo_step (g : GameState) : GameState :=
  if g.undo_log.isEmpty then g
  else if g.undo_index = 0 then g
  else
    let new_fc := g.undo_log.getD (g.undo_index - 1) default
    if g.undo_index = g.undo_log.length then
      { fc := new_fc, undo_log := g.undo_log ++ [g.fc], undo_index := g.undo_index - 1 }
    else
      { g with fc := new_fc, undo_index := g.undo_index - 1 }

/-- The user-visible outcome of `FreeCellGame::redo`. -/
inductive RedoMsg where
  | noChanges
  | alreadyNewest
  | redone
deriving DecidableEq, Repr

/-- `FreeCellGame::redo`, with its reported outcome.  The `usize`
subtraction `undo.len() - 2` is `Nat` subtraction here; the branch is only
reached with `undo.len() >= 2` on states satisfying the history invariant. -/
def redo_full (g : GameState) : GameState × RedoMsg :=
  if g.undo_log.isEmpty then (g, .noChanges)
  else if g.undo_index = g.undo_log.length then (g, .alreadyNewest)
  else if g.undo_index = g.undo_log.length - 2 then
    ({ fc := g.undo_log.getLastD default, undo_log := g.undo_log.dropLast,
       undo_index := g.undo_index + 1 }, .redone)
  else
    ({ g with
        fc := (g.undo_log.getD (g.undo_index + 1) default),
        undo_index := g.undo_index + 1 }, .redone)

def redo_step (g : GameState) : GameState := (redo_full g).1

/-! ### The two-step command surface (`FreeCellGame::action` and helpers) -/

/-- `enum Action` of the source. -/
inductive Act where
  | foundation
  | reserve
  | reserveSlot (n : Nat)
  | slot (n : Nat)
deriving DecidableEq, Repr

/-- Named outcomes of a resolved action pair; every constructor except `ok`
corresponds to a `set_message` branch (or to storing a pending selection)
and mutates nothing. -/
inductive Outcome where
  | ok
  | pending
  | invalidAction
  | invalidReserveSlot
  | reserveSlotEmpty
  | tableauSlotEmpty
  | cannotMoveToFoundation
  | cannotMoveToTableau
  | noFreeReserve
  | insufficientCapacity
  | cannotMoveCards
deriving DecidableEq, Repr

/-- `FreeCellGame::move_to_reserve`. -/
def move_to_reserve (g : GameState) (a : Nat) : GameState × Outcome :=
  if (g.fc.tableau.getD a []).isEmpty then (g, .tableauSlotEmpty)
  else if g.fc.reserve_free then
    match (g.fc.tableau.getD a []).getLast? with
    | some c => (do_move g (fun fc => (fc.pop_tableau a).add_to_reserve c), .ok)
    | none => (g, .tableauSlotEmpty)
  else (g, .noFreeReserve)

/-- `FreeCellGame::move_tableau`: find the smallest depth `i` whose card
stacks on the destination top (breaking there), failing when `i` exceeds the
move capacity; an empty destination takes the whole capacity. -/
def move_tableau (g : GameState) (a b : Nat) : GameState × Outcome :=
  match (g.fc.tableau.getD b []).getLast? with
  | some top =>
      match (List.range' 1 (g.fc.group_size a)).find?
          (fun i => ((g.fc.tableau.getD a []).getD
            ((g.fc.tableau.getD a []).length - i) default).can_top top) with
      | some i =>
          if i > g.fc.move_capacity a b then (g, .insufficientCapacity)
          else (do_move g (fun fc => fc.move_tableau_group a b i), .ok)
      | none => (g, .cannotMoveCards)
  | none => (do_move g (fun fc => fc.move_tableau_group a b (g.fc.move_capacity a b)), .ok)

/-- The `match (old, action)` dispatch of `FreeCellGame::action`, for a
stored first reference `old` and a second reference `act`. -/
def run_pair (g : GameState) : Act → Act → GameState × Outcome
  | .reserve, .slot n =>
      if n ≤ 3 then
        if (g.fc.reserve_at n).isSome then (g, .pending) else (g, .reserveSlotEmpty)
      else (g, .invalidReserveSlot)
  | .reserveSlot n, .foundation =>
      match g.fc.reserve_at n with
      | some c =>
          if g.fc.can_move_to_foundation c then
            (do_move g (fun fc => (fc.remove_reserve n).add_to_foundation c), .ok)
          else (g, .cannotMoveToFoundation)
      | none => (g, .reserveSlotEmpty)
  | .reserveSlot a, .slot b =>
      match g.fc.reserve_at a with
      | some c =>
          if g.fc.can_move_to_tableau c b then
            (do_move g (fun fc => (fc.remove_reserve a).add_to_tableau c b), .ok)
          else (g, .cannotMoveToTableau)
      | none => (g, .reserveSlotEmpty)
  | .slot a, .foundation =>
      match (g.fc.tableau.getD a []).getLast? with
      | some c =>
          if g.fc.can_move_to_foundation c then
            (do_move g (fun fc => (fc.pop_tableau a).add_to_foundation c), .ok)
          else (g, .cannotMoveToFoundation)
      | none => (g, .tableauSlotEmpty)
  | .slot a, .reserve => move_to_reserve g a
  | .slot a, .slot b =>
      if a = b then move_to_reserve g a
      else if (g.fc.tableau.getD a []).isEmpty then (g, .tableauSlotEmpty)
      else move_tableau g a b
  | _, _ => (g, .invalidAction)

/-! ## Reachable session states

Every engine operation the controller can perform on a session: the five
single-card / group moves (each `push_undo` + mutation, guarded by the
controller's legality checks), the automatic sweep of the tick handler
(`fc.sweep_step(3)`, no history push), and undo / redo. -/

inductive Reach : GameState → Prop
  | init (deck : List Card) (hp : deck.Perm full_deck_list) :
      Reach ⟨FreeCell.new deck, [], 0⟩
  | res_found (g : GameState) (n : Nat) (c : Card) (hg : Reach g) (hn : n < 4)
      (hc : g.fc.reserve_at n = some c) (hm : g.fc.can_move_to_foundation c = true) :
      Reach (do_move g (fun fc => (fc.remove_reserve n).add_to_foundation c))
  | res_tab (g : GameState) (n p : Nat) (c : Card) (hg : Reach g) (hn : n < 4) (hp : p < 8)
      (hc : g.fc.reserve_at n = some c) (hm : g.fc.can_move_to_tableau c p = true) :
      Reach (do_move g (fun fc => (fc.remove_reserve n).add_to_tableau c p))
  | tab_found (g : GameState) (a : Nat) (c : Card) (hg : Reach g) (ha : a < 8)
      (hc : (g.fc.tableau.getD a []).getLast? = some c)
      (hm : g.fc.can_move_to_foundation c = true) :
      Reach (do_move g (fun fc => (fc.pop_tableau a).add_to_foundation c))
  | tab_res (g : GameState) (a : Nat) (c : Card) (hg : Reach g) (ha : a < 8)
      (hc : (g.fc.tableau.getD a []).getLast? = some c)
      (hf : g.fc.reserve_free = true) :
      Reach (do_move g (fun fc => (fc.pop_tableau a).add_to_reserve c))
  | tab_move (g : GameState) (a b n : Nat) (hg : Reach g) (ha : a < 8) (hb : b < 8)
      (hab : a ≠ b) (h1 : 1 ≤ n) (h2 : n ≤ g.fc.move_capacity a b) :
      Reach (do_move g (fun fc => fc.move_tableau_group a b n))
  | sweep (g : GameState) (b' : FreeCell) (r : Bool) (hg : Reach g)
      (hs : g.fc.sweep_step 3 = some (b', r)) :
      Reach { g with fc := b' }
  | undo (g : GameState) (hg : Reach g) : Reach (undo_step g)
  | redo (g : GameState) (hg : Reach g) : Reach (redo_step g)

/-! ## First sanity checks -/

example : (⟨.Diamond, 6⟩ : Card).can_top ⟨.Spade, 7⟩ = true := by decide

example : (⟨.Spade, 6⟩ : Card).can_top ⟨.Spade, 7⟩ = false := by decide

/-! ## List toolkit -/

theorem getD_set_ne {α : Type} (l : List α) (i j : Nat) (x d : α) (h : i ≠ j) :
    (l.set i x).getD j d = l.getD j d := by
  simp [List.getD_eq_getElem?_getD, List.getElem?_set_ne h]

theorem getD_set_self {α : Type} (l : List α) (i : Nat) (x d : α) (h : i < l.length) :
    (l.set i x).getD i d = x := by
  simp [List.getD_eq_getElem?_getD, List.getElem?_set_self h]

theorem getD_mem {α : Type} (l : List α) (i : Nat) (d : α) (h : i < l.length) :
    l.getD i d ∈ l := by
  rw [List.getD_eq_getElem?_getD, List.getElem?_eq_getElem h]
  exact List.getElem_mem h

/-- Replacing the element at a valid index changes a mapped sum by swapping
out exactly the image of the old element. -/
theorem sum_map_set {α M : Type} [AddCommMonoid M] (m : α → M) (d : α) :
    ∀ (l : List α) (i : Nat) (x : α), i < l.length →
      ((l.set i x).map m).sum + m (l.getD i d) = (l.map m).sum + m x
  | [], i, x, h => by simp at h
  | a :: l, 0, x, _ => by
      simp [List.set, add_comm, add_left_comm, add_assoc]
  | a :: l, i + 1, x, h => by
      have ih := sum_map_set m d l i x (by simpa using h)
      simp only [List.set, List.map_cons, List.sum_cons, List.getD_cons_succ]
      rw [add_assoc, ih, add_assoc]

theorem map_range_getD {α : Type} (l : List α) (d : α) :
    (List.range l.length).map (fun i => l.getD i d) = l := by
  apply List.ext_getElem
  · simp
  · intro n h1 h2
    simp [List.getD_eq_getElem?_getD, List.getElem?_eq_getElem h2]

/-- Counting by value equals counting by index over `range`. -/
theorem filter_length_eq_range (t : List (List Card)) :
    (t.filter (fun c => c.isEmpty)).length =
      ((List.range t.length).filter (fun i => (t.getD i []).isEmpty)).length := by
  conv_lhs => rw [← map_range_getD t []]
  rw [List.filter_map]
  simp only [List.length_map]
  rfl

/-- Splitting a duplicate-free index filter at one distinguished member. -/
theorem nodup_filter_split (b : Nat) (p : Nat → Bool) :
    ∀ (l : List Nat), b ∈ l → l.Nodup →
      (l.filter (fun i => !(i == b) && p i)).length + (if p b then 1 else 0) =
        (l.filter p).length
  | [], hb, _ => by simp at hb
  | a :: l, hb, hn => by
      rcases List.nodup_cons.mp hn with ⟨hal, hnl⟩
      by_cases hba : b = a
      · subst hba
        have h1 : l.filter (fun i => !(i == b) && p i) = l.filter p := by
          apply List.filter_congr
          intro x hx
          have : x ≠ b := fun h => hal (h ▸ hx)
          simp [this]
        simp only [List.filter_cons, beq_self_eq_true, Bool.not_true, Bool.false_and, h1]
        cases hp : p b <;> simp [hp, Nat.add_comm]
      · have hbl : b ∈ l := by
          rcases List.mem_cons.mp hb with h | h
          · exact absurd h hba
          · exact h
        have ih := nodup_filter_split b p l hbl hnl
        have hne : (a == b) = false := by
          simp only [beq_eq_false_iff_ne]
          exact fun h => hba h.symm
        simp only [List.filter_cons, hne, Bool.not_false, Bool.true_and]
        cases hp : p a <;> simp [hp, ← ih] <;> omega

/-! ## Claim C3: supermove capacity -/

/-- Modelled from the spec: the number of empty reserve slots. -/
def free_reserve_count (fc : FreeCell) : Nat :=
  (fc.reserve.filter (fun r => r.isNone)).length

/-- Modelled from the spec: the number of empty tableau columns other than
the destination column itself. -/
def free_cols_except (fc : FreeCell) (dst : Nat) : Nat :=
  ((List.range fc.tableau.length).filter
    (fun i => !(i == dst) && (fc.tableau.getD i []).isEmpty)).length

/-- **C3.** For distinct columns with a non-empty source,
`move_capacity(a, b) = min(group_size(a), (free_reserve + 1) *
2 ^ (empty columns excluding b))`. -/
theorem move_capacity_formula (fc : FreeCell) (a b : Nat) (hab : a ≠ b)
    (hb : b < fc.tableau.length) (ha : fc.tableau.getD a [] ≠ []) :
    fc.move_capacity a b =
      min (fc.group_size a) ((free_reserve_count fc + 1) * 2 ^ free_cols_except fc b) := by
  have hsplit := nodup_filter_split b (fun i => (fc.tableau.getD i []).isEmpty)
    (List.range fc.tableau.length) (List.mem_range.mpr hb) (List.nodup_range _)
  unfold FreeCell.move_capacity free_reserve_count free_cols_except
  rw [filter_length_eq_range]
  cases hpb : (fc.tableau.getD b []).isEmpty
  · simp only [hpb] at hsplit
    simp only [hpb, if_false, Bool.false_eq_true, Nat.add_zero] at hsplit ⊢
    rw [hsplit]
  · simp only [hpb, if_true] at hsplit
    simp only [hpb, if_true]
    rw [← hsplit, Nat.add_sub_cancel]

/-- The board of C3's example: two free reserve slots, source column 0
(two stacked cards), non-empty destination column 1, and exactly one other
empty column (column 2). -/
def capacity_example_board : FreeCell :=
  ⟨[some ⟨.Club, 9⟩, some ⟨.Heart, 9⟩, none, none],
   [none, none, none, none],
   [[⟨.Spade, 7⟩, ⟨.Diamond, 6⟩], [⟨.Heart, 9⟩], [], [⟨.Club, 2⟩],
    [⟨.Club, 3⟩], [⟨.Club, 4⟩], [⟨.Club, 5⟩], [⟨.Club, 6⟩]]⟩

/-- Witness for C3, at the claim's own example: 2 free reserve slots, 1
other empty column, non-empty destination gives `min(group_size, 6)`. -/
theorem move_capacity_formula_witness :
    capacity_example_board.move_capacity 0 1 =
      min (capacity_example_board.group_size 0) 6 := by
  rw [move_capacity_formula capacity_example_board 0 1 (by decide) (by decide) (by decide)]
  rfl

/-! ## Claim C2: the auto-sweep safety rule -/

/-- Modelled from the spec: "let `min_black` = min rank currently on the two
black foundations (0 if empty), `min_red` = min rank on the two red
foundations; a black card of rank R is safe iff
`R <= min(min_black + 3, min_red + 2)`; a red card is safe iff
`R <= min(min_red + 3, min_black + 2)`". -/
def spec_rank_on (fc : FreeCell) (s : Suit) : Nat :=
  match fc.foundation_at s with
  | some c => c.value
  | none => 0

def spec_safe_rank (fc : FreeCell) (card : Card) : Prop :=
  let mb := min (spec_rank_on fc .Club) (spec_rank_on fc .Spade)
  let mr := min (spec_rank_on fc .Diamond) (spec_rank_on fc .Heart)
  if card.suit.color = Color.Black then
    card.value ≤ min (mb + 3) (mr + 2)
  else
    card.value ≤ min (mr + 3) (mb + 2)

/-- The board of the claim's example: foundations
`{club: 2, spade: 1, diamond: 0 (empty), heart: 0 (empty)}`. -/
def example_board : FreeCell :=
  ⟨[none, none, none, none],
   [some ⟨.Club, 2⟩, none, none, some ⟨.Spade, 1⟩],
   [[], [], [], [], [], [], [], []]⟩

/-- **C2.** `should_move_to_foundation` holds exactly when the card can be
placed on its foundation and its rank clears the asymmetric +3/+2 safety
margin; and on the example foundations a black 4 is not safe. -/
theorem should_move_iff_safe :
    (∀ (fc : FreeCell) (card : Card),
      fc.should_move_to_foundation card = true ↔
        (fc.can_move_to_foundation card = true ∧ spec_safe_rank fc card)) ∧
    (¬ spec_safe_rank example_board ⟨.Spade, 4⟩ ∧
      example_board.should_move_to_foundation ⟨.Spade, 4⟩ = false) := by
  constructor
  · intro fc card
    unfold FreeCell.should_move_to_foundation foundation_should
      FreeCell.can_move_to_foundation spec_safe_rank spec_rank_on
      FreeCell.foundation_at foundation_value
    cases h : can_succeed_found fc.foundation card <;>
      cases hc : card.suit.color <;> simp [h, hc]
  · constructor
    · unfold spec_safe_rank spec_rank_on FreeCell.foundation_at
      decide
    · decide

/-! ## Claim C4: `group_size` is the maximal movable suffix -/

/-- Modelled from the spec: a bottom-to-top card sequence in which every
adjacent pair stacks — the upper card can be placed atop the one below it. -/
def is_run : List Card → Bool
  | [] => true
  | [_] => true
  | x :: y :: rest => y.can_top x && is_run (y :: rest)

/-- The same run predicate read top-first (the orientation of `run_len`). -/
def is_run_top : List Card → Bool
  | [] => true
  | [_] => true
  | a :: b :: rest => a.can_top b && is_run_top (b :: rest)

theorem run_len_le : ∀ l : List Card, run_len l ≤ l.length
  | [] => by simp [run_len]
  | [_] => by simp [run_len]
  | a :: b :: rest => by
      unfold run_len
      by_cases h : a.can_top b
      · have ih := run_len_le (b :: rest)
        simp only [h, if_true]
        simp only [List.length_cons] at ih ⊢
        omega
      · simp [h]

theorem run_len_pos (a : Card) (l : List Card) : 1 ≤ run_len (a :: l) := by
  cases l with
  | nil => simp [run_len]
  | cons b rest =>
      unfold run_len
      by_cases h : a.can_top b <;> simp [h]

theorem is_run_top_take_run_len : ∀ l : List Card, is_run_top (l.take (run_len l)) = true
  | [] => by simp [run_len, is_run_top]
  | [a] => by simp [run_len, is_run_top]
  | a :: b :: rest => by
      unfold run_len
      by_cases h : a.can_top b
      · have ih := is_run_top_take_run_len (b :: rest)
        have hpos : 1 ≤ run_len (b :: rest) := run_len_pos b rest
        simp only [h, if_true]
        obtain ⟨k, hk⟩ : ∃ k, run_len (b :: rest) = k + 1 :=
          ⟨run_len (b :: rest) - 1, by omega⟩
        rw [hk] at ih
        rw [hk, Nat.add_comm 1 (k + 1), List.take_succ_cons]
        rw [List.take_succ_cons] at ih
        show (a.can_top b && is_run_top ((b :: rest).take (k + 1))) = true
        rw [List.take_succ_cons]
        simp [h, ih]
      · simp [h, is_run_top]

theorem is_run_top_tail (a : Card) (l : List Card) (h : is_run_top (a :: l) = true) :
    is_run_top l = true := by
  cases l with
  | nil => simp [is_run_top]
  | cons b rest =>
      unfold is_run_top at h
      exact Bool.and_elim_right h

theorem run_len_max : ∀ (l : List Card) (m : Nat), m ≤ l.length →
    is_run_top (l.take m) = true → m ≤ run_len l
  | _, 0, _, _ => Nat.zero_le _
  | [], m + 1, hm, _ => by simp at hm
  | [a], m + 1, hm, _ => by
      simp only [List.length_cons, List.length_nil] at hm
      have h0 : m = 0 := by omega
      subst h0
      simp [run_len]
  | a :: b :: rest, m + 1, hm, hr => by
      cases m with
      | zero => exact run_len_pos a (b :: rest)
      | succ k =>
          have hr2 : (a.can_top b && is_run_top (b :: rest.take k)) = true := by
            have h0 : is_run_top (a :: b :: rest.take k) = true := by
              rw [List.take_succ_cons, List.take_succ_cons] at hr
              exact hr
            exact h0
          rcases Bool.and_eq_true_iff.mp hr2 with ⟨hab, htl⟩
          have htail : is_run_top ((b :: rest).take (k + 1)) = true := by
            rw [List.take_succ_cons]
            exact htl
          have ih := run_len_max (b :: rest) (k + 1) (by simpa using hm) htail
          unfold run_len
          simp only [hab, if_true]
          omega

/-- An append-one-card characterisation of the top-first run predicate. -/
theorem is_run_top_append_single : ∀ (l : List Card) (x : Card),
    is_run_top (l ++ [x]) =
      (is_run_top l && (match l.getLast? with | some a => a.can_top x | none => true))
  | [], x => by simp [is_run_top]
  | [a], x => by simp [is_run_top, List.getLast?_singleton]
  | a :: b :: rest, x => by
      have ih := is_run_top_append_single (b :: rest) x
      simp only [List.cons_append] at ih ⊢
      unfold is_run_top
      rw [ih]
      simp [List.getLast?_cons_cons, Bool.and_assoc]

/-- Reading a run bottom-first is reading its reverse top-first. -/
theorem is_run_eq_reverse : ∀ l : List Card, is_run l = is_run_top l.reverse
  | [] => by simp [is_run, is_run_top]
  | [a] => by simp [is_run, is_run_top]
  | x :: y :: rest => by
      have ih := is_run_eq_reverse (y :: rest)
      unfold is_run
      rw [ih]
      have hrw : (x :: y :: rest).reverse = (y :: rest).reverse ++ [x] := by simp
      rw [hrw, is_run_top_append_single, List.getLast?_reverse]
      simp [Bool.and_comm]

theorem group_size_eq_run_len (fc : FreeCell) (pos : Nat) :
    fc.group_size pos = run_len (fc.tableau.getD pos []).reverse := by
  unfold FreeCell.group_size
  cases hs : fc.tableau.getD pos [] with
  | nil => simp [run_len]
  | cons a t =>
      cases t with
      | nil => simp [run_len]
      | cons b t2 => simp

/-- **C4.** `group_size` returns the length of the maximal suffix of the
column forming a valid run (every adjacent pair stacking): `0` for an empty
column, `1` for a single card, and stopping at the first non-stacking
adjacent pair from the top. -/
theorem group_size_max_run_suffix (fc : FreeCell) (pos : Nat) :
    fc.group_size pos ≤ (fc.tableau.getD pos []).length ∧
    is_run ((fc.tableau.getD pos []).drop
      ((fc.tableau.getD pos []).length - fc.group_size pos)) = true ∧
    ∀ m, m ≤ (fc.tableau.getD pos []).length →
      is_run ((fc.tableau.getD pos []).drop ((fc.tableau.getD pos []).length - m)) = true →
      m ≤ fc.group_size pos := by
  rw [group_size_eq_run_len]
  have hrev : ∀ m, m ≤ (fc.tableau.getD pos []).length →
      is_run ((fc.tableau.getD pos []).drop ((fc.tableau.getD pos []).length - m)) =
        is_run_top ((fc.tableau.getD pos []).reverse.take m) := by
    intro m hm
    rw [is_run_eq_reverse]
    congr 1
    rw [List.reverse_drop]
    congr 1
    omega
  have hlen : run_len (fc.tableau.getD pos []).reverse ≤ (fc.tableau.getD pos []).length := by
    simpa using run_len_le (fc.tableau.getD pos []).reverse
  refine ⟨hlen, ?_, ?_⟩
  · rw [hrev _ hlen]
    exact is_run_top_take_run_len (fc.tableau.getD pos []).reverse
  · intro m hm hr
    rw [hrev _ hm] at hr
    exact run_len_max (fc.tableau.getD pos []).reverse m (by simpa using hm) hr

/-- The two example columns of C4: `[..., 7♠, 6♦, 5♠]` (group 3, break
below) and `[..., 7♠, 6♠, 5♦]` (group 2, break at the same-color pair). -/
def group_example_board : FreeCell :=
  ⟨[none, none, none, none],
   [none, none, none, none],
   [[⟨.Heart, 2⟩, ⟨.Spade, 7⟩, ⟨.Diamond, 6⟩, ⟨.Spade, 5⟩],
    [⟨.Heart, 2⟩, ⟨.Spade, 7⟩, ⟨.Spade, 6⟩, ⟨.Diamond, 5⟩],
    [], [⟨.Club, 4⟩], [], [], [], []]⟩

/-- Witness for C4, with the maximality hypotheses discharged at the
claim's example columns (group sizes 3, 2, 0 and 1). -/
theorem group_size_max_run_suffix_witness :
    (group_example_board.group_size 0 = 3 ∧ group_example_board.group_size 1 = 2 ∧
      group_example_board.group_size 2 = 0 ∧ group_example_board.group_size 3 = 1) ∧
    is_run ((group_example_board.tableau.getD 0 []).drop 1) = true ∧ (3 : Nat) ≤ 3 := by
  refine ⟨by decide, ?_, ?_⟩
  · exact (group_size_max_run_suffix group_example_board 0).2.1
  · exact (group_size_max_run_suffix group_example_board 0).2.2 3 (by decide)
      (by decide)


/-! ## Claim C6: undo/redo round-trip after a successful command -/

/-- `undo` from a state whose cursor sits at the end of a non-empty log:
restore the last snapshot and push the live board down onto the log. -/
theorem undo_step_push (v x : FreeCell) (L : List FreeCell) (i : Nat)
    (hi : i = L.length + 1) :
    undo_step ⟨v, L ++ [x], i⟩ = ⟨x, (L ++ [x]) ++ [v], i - 1⟩ := by
  have h1 : (L ++ [x]).isEmpty = false := by simp
  have h2 : i ≠ 0 := by omega
  have h3 : (L ++ [x]).getD (i - 1) default = x := by
    have hg : (L ++ [x]).getD L.length default = x := by
      rw [List.getD_eq_getElem?_getD, List.getElem?_concat_length]
      rfl
    have : i - 1 = L.length := by omega
    rw [this, hg]
  have h4 : i = (L ++ [x]).length := by simp [hi]
  simp only [undo_step, h1, Bool.false_eq_true, if_false, if_neg h2, h3, if_pos h4]

/-- `redo` from a state whose cursor sits exactly two below the log's end:
restore the popped trailing snapshot. -/
theorem redo_full_pop (v : FreeCell) (L : List FreeCell) (i : Nat)
    (hL : L.length = i + 2) :
    redo_full ⟨v, L, i⟩ = (⟨L.getLastD default, L.dropLast, i + 1⟩, RedoMsg.redone) := by
  have hne : L ≠ [] := by
    intro h
    rw [h] at hL
    simp at hL
  have h1 : L.isEmpty = false := by simpa [List.isEmpty_iff] using hne
  have h2 : i ≠ L.length := by omega
  have h3 : i = L.length - 2 := by omega
  simp only [redo_full, h1, Bool.false_eq_true, if_false, if_neg h2, if_pos h3]

/-- **C6.** After any single successful mutating player command
(`push_undo` followed by a board mutation `m`), `undo` restores exactly the
prior board, and `redo` immediately afterwards restores exactly the
post-command board. -/
theorem undo_redo_roundtrip (g : GameState) (m : FreeCell → FreeCell)
    (h : g.undo_index ≤ g.undo_log.length) :
    (undo_step (do_move g m)).fc = g.fc ∧
    (redo_step (undo_step (do_move g m))).fc = (do_move g m).fc := by
  have hlen : (g.undo_log.take g.undo_index).length = g.undo_index := by
    rw [List.length_take]
    omega
  have h1 : do_move g m =
      ⟨m g.fc, g.undo_log.take g.undo_index ++ [g.fc], g.undo_index + 1⟩ := by
    unfold do_move push_undo
    simp [hlen]
  have h2 : undo_step (do_move g m) =
      ⟨g.fc, (g.undo_log.take g.undo_index ++ [g.fc]) ++ [m g.fc], g.undo_index⟩ := by
    rw [h1, undo_step_push (m g.fc) g.fc _ _ (by simp [hlen])]
    simp
  have hL2 : ((g.undo_log.take g.undo_index ++ [g.fc]) ++ [m g.fc]).length
      = g.undo_index + 2 := by
    simp [hlen]
  have h3 : redo_step (undo_step (do_move g m)) =
      ⟨m g.fc, g.undo_log.take g.undo_index ++ [g.fc], g.undo_index + 1⟩ := by
    rw [h2]
    unfold redo_step
    rw [redo_full_pop g.fc _ g.undo_index hL2]
    simp [List.getLastD_concat]
  refine ⟨?_, ?_⟩
  · rw [h2]
  · rw [h3, h1]

/-- Witness for C6 at a concrete session state and command. -/
theorem undo_redo_roundtrip_witness :
    (undo_step (do_move ⟨example_board, [], 0⟩ id)).fc = example_board ∧
    (redo_step (undo_step (do_move ⟨example_board, [], 0⟩ id))).fc =
      (do_move ⟨example_board, [], 0⟩ id).fc :=
  undo_redo_roundtrip ⟨example_board, [], 0⟩ id (Nat.le_refl 0)

/-! ## Claim C7: failed attempts leave the session unchanged -/

theorem move_to_reserve_failure (g : GameState) (a : Nat) :
    (move_to_reserve g a).2 ≠ Outcome.ok → (move_to_reserve g a).1 = g := by
  unfold move_to_reserve
  repeat' split
  all_goals intro h
  all_goals first | rfl | exact absurd rfl h

theorem move_tableau_failure (g : GameState) (a b : Nat) :
    (move_tableau g a b).2 ≠ Outcome.ok → (move_tableau g a b).1 = g := by
  unfold move_tableau
  repeat' split
  all_goals intro h
  all_goals first | rfl | exact absurd rfl h

/-- **C7.** Whenever a resolved two-step move attempt reports anything other
than a successful mutation, the board, the undo log and the undo cursor are
left exactly as they were. -/
theorem run_pair_failure (g : GameState) (a1 a2 : Act) :
    (run_pair g a1 a2).2 ≠ Outcome.ok → (run_pair g a1 a2).1 = g := by
  cases a1 <;> cases a2 <;> unfold run_pair
  all_goals repeat' split
  all_goals intro h
  all_goals
    first
      | rfl
      | exact absurd rfl h
      | exact move_to_reserve_failure g _ h
      | exact move_tableau_failure g _ _ h

/-- Witness for C7: a concrete failing attempt (moving from an empty
reserve slot to the foundation) reports a named outcome and changes
nothing. -/
theorem run_pair_failure_witness :
    (run_pair ⟨example_board, [], 0⟩ (Act.reserveSlot 0) Act.foundation).1 =
      ⟨example_board, [], 0⟩ :=
  run_pair_failure ⟨example_board, [], 0⟩ (Act.reserveSlot 0) Act.foundation (by decide)

/-! ## Claim C8: `redo` boundary behaviour -/

theorem getLastD_eq_getD {α : Type} (L : List α) (d : α) :
    L.getLastD d = L.getD (L.length - 1) d := by
  rw [List.getLastD_eq_getLast?, List.getLast?_eq_getElem?, List.getD_eq_getElem?_getD]

/-- **C8 counterexample.** On an empty log the code reports "No changes
made", not "already at newest state", even though the cursor (0) is at the
log's end (length 0); so the claim's reading of the empty-log case is
wrong. -/
theorem redo_empty_log_counterexample :
    (redo_full ⟨example_board, [], 0⟩).2 = RedoMsg.noChanges ∧
    (redo_full ⟨example_board, [], 0⟩).2 ≠ RedoMsg.alreadyNewest ∧
    (⟨example_board, [], 0⟩ : GameState).undo_index =
      (⟨example_board, [], 0⟩ : GameState).undo_log.length := by
  refine ⟨rfl, ?_, rfl⟩
  intro h
  simp [redo_full] at h

/-- **C8 (amended).** `redo` reports "no changes made" exactly on an empty
log and "already at newest state" exactly when the log is non-empty with
the cursor at its end; the boundary reports leave the state unchanged;
otherwise it increments the cursor, makes the snapshot at the new cursor
the live board, and pops the log's trailing placeholder exactly when the
cursor reaches it.  The hypothesis is the history invariant maintained by
the session (cursor at end, or at least two below the end). -/
theorem redo_spec (g : GameState)
    (hist : g.undo_index = g.undo_log.length ∨ g.undo_index + 2 ≤ g.undo_log.length) :
    ((redo_full g).2 = RedoMsg.noChanges ↔ g.undo_log = []) ∧
    ((redo_full g).2 = RedoMsg.alreadyNewest ↔
      (g.undo_log ≠ [] ∧ g.undo_index = g.undo_log.length)) ∧
    ((redo_full g).2 ≠ RedoMsg.redone → (redo_full g).1 = g) ∧
    ((redo_full g).2 = RedoMsg.redone →
      (redo_full g).1.fc = g.undo_log.getD (g.undo_index + 1) default ∧
      (redo_full g).1.undo_index = g.undo_index + 1 ∧
      (redo_full g).1.undo_log =
        (if g.undo_index + 2 = g.undo_log.length then g.undo_log.dropLast
         else g.undo_log)) := by
  by_cases he : g.undo_log.isEmpty = true
  · have hnil : g.undo_log = [] := List.isEmpty_iff.mp he
    have hr : redo_full g = (g, RedoMsg.noChanges) := by
      unfold redo_full
      rw [if_pos he]
    rw [hr]
    refine ⟨by simp [hnil], by simp [hnil], fun _ => rfl, fun h => by simp at h⟩
  · have hnil : g.undo_log ≠ [] := by
      intro h
      exact he (List.isEmpty_iff.mpr h)
    by_cases hend : g.undo_index = g.undo_log.length
    · have hr : redo_full g = (g, RedoMsg.alreadyNewest) := by
        unfold redo_full
        rw [if_neg (by simp [he]), if_pos hend]
      rw [hr]
      refine ⟨by simp [hnil], ⟨fun _ => ⟨hnil, hend⟩, fun _ => rfl⟩, fun _ => rfl,
        fun h => by simp at h⟩
    · have h2 : g.undo_index + 2 ≤ g.undo_log.length := by
        rcases hist with h | h
        · exact absurd h hend
        · exact h
      by_cases hpop : g.undo_index = g.undo_log.length - 2
      · have hlen : g.undo_log.length = g.undo_index + 2 := by omega
        have hr : redo_full g =
            (⟨g.undo_log.getLastD default, g.undo_log.dropLast, g.undo_index + 1⟩,
              RedoMsg.redone) := by
          unfold redo_full
          rw [if_neg (by simp [he]), if_neg hend, if_pos hpop]
        rw [hr]
        refine ⟨by simp [hnil], by simp [hend], fun h => absurd rfl h, fun _ => ?_⟩
        refine ⟨?_, rfl, ?_⟩
        · rw [getLastD_eq_getD]
          have hidx : g.undo_log.length - 1 = g.undo_index + 1 := by omega
          rw [hidx]
        · rw [if_pos hlen.symm]
      · have hne2 : g.undo_index + 2 ≠ g.undo_log.length := by omega
        have hr : redo_full g =
            (⟨g.undo_log.getD (g.undo_index + 1) default, g.undo_log,
              g.undo_index + 1⟩, RedoMsg.redone) := by
          unfold redo_full
          rw [if_neg (by simp [he]), if_neg hend, if_neg hpop]
        rw [hr]
        refine ⟨by simp [hnil], by simp [hend], fun h => absurd rfl h, fun _ => ?_⟩
        exact ⟨rfl, rfl, by rw [if_neg hne2]⟩

/-- Witness for C8's amended theorem, at a concrete two-snapshot history
with the cursor two below the end (the pop branch). -/
theorem redo_spec_witness :
    (redo_full ⟨example_board, [example_board, capacity_example_board], 0⟩).1.undo_index
      = 0 + 1 := by
  have h := redo_spec ⟨example_board, [example_board, capacity_example_board], 0⟩
    (Or.inr (by decide))
  exact (h.2.2.2 rfl).2.1

/-! ## Claim C9: tableau-to-tableau move resolution -/

/-- The loop condition of `move_tableau`: the `i`-th card from the top of
column `a` (1-based, `tab_a[len - i]`) stacks on `top`. -/
def stacks_at (fc : FreeCell) (a : Nat) (top : Card) (i : Nat) : Bool :=
  ((fc.tableau.getD a []).getD ((fc.tableau.getD a []).length - i) default).can_top top

/-- `find?` over `range'` returns the least index satisfying the predicate. -/
theorem find?_range'_some (p : Nat → Bool) :
    ∀ (n s i : Nat), (List.range' s n).find? p = some i →
      p i = true ∧ s ≤ i ∧ i < s + n ∧ ∀ j, s ≤ j → j < i → p j = false
  | 0, s, i, h => by simp [List.range'] at h
  | n + 1, s, i, h => by
      rw [List.range'_succ] at h
      by_cases hs : p s = true
      · rw [List.find?_cons_of_pos _ hs] at h
        injection h with h
        subst h
        exact ⟨hs, Nat.le_refl s, by omega, fun j h1 h2 => by omega⟩
      · rw [List.find?_cons_of_neg _ hs] at h
        obtain ⟨hp, hle, hlt, hmin⟩ := find?_range'_some p n (s + 1) i h
        refine ⟨hp, by omega, by omega, fun j h1 h2 => ?_⟩
        by_cases hj : j = s
        · subst hj
          exact Bool.not_eq_true _ ▸ hs
        · exact hmin j (by omega) h2

/-- **C9.** Pairing a non-empty source column `a` with a distinct tableau
destination `b`: when `b` has a top card, the controller moves exactly the
least depth `i ≤ group_size(a)` whose card stacks on that top — failing
with `insufficientCapacity` (state unchanged) when that least `i` exceeds
`move_capacity(a, b)`, and with `cannotMoveCards` when no depth in the
movable group stacks; when `b` is empty it moves exactly
`move_capacity(a, b)` cards. -/
theorem move_tableau_resolution (g : GameState) (a b : Nat) :
    (∀ top, (g.fc.tableau.getD b []).getLast? = some top →
      ((∀ i, 1 ≤ i → i ≤ g.fc.group_size a → stacks_at g.fc a top i = true →
          (∀ j, 1 ≤ j → j < i → stacks_at g.fc a top j = false) →
          ((i ≤ g.fc.move_capacity a b →
             move_tableau g a b =
               (do_move g (fun fc => fc.move_tableau_group a b i), Outcome.ok)) ∧
           (g.fc.move_capacity a b < i →
             move_tableau g a b = (g, Outcome.insufficientCapacity)))) ∧
       ((∀ i, 1 ≤ i → i ≤ g.fc.group_size a → stacks_at g.fc a top i = false) →
         move_tableau g a b = (g, Outcome.cannotMoveCards)))) ∧
    ((g.fc.tableau.getD b []).getLast? = none →
      move_tableau g a b =
        (do_move g (fun fc => fc.move_tableau_group a b (g.fc.move_capacity a b)),
          Outcome.ok)) := by
  constructor
  · intro top htop
    constructor
    · intro i h1 hsize hstack hmin
      simp only [stacks_at] at hstack hmin
      have hfind : (List.range' 1 (g.fc.group_size a)).find?
          (fun i => ((g.fc.tableau.getD a []).getD
            ((g.fc.tableau.getD a []).length - i) default).can_top top) = some i := by
        cases hf : (List.range' 1 (g.fc.group_size a)).find?
            (fun i => ((g.fc.tableau.getD a []).getD
              ((g.fc.tableau.getD a []).length - i) default).can_top top) with
        | none =>
            exfalso
            have hall := List.find?_eq_none.mp hf
            have hmem : i ∈ List.range' 1 (g.fc.group_size a) :=
              List.mem_range'_1.mpr ⟨h1, by omega⟩
            exact hall i hmem hstack
        | some i' =>
            obtain ⟨hp, hle, hlt, hmin'⟩ := find?_range'_some _ _ _ _ hf
            have hii : i' = i := by
              rcases Nat.lt_trichotomy i' i with h | h | h
              · rw [hmin i' hle h] at hp
                simp at hp
              · exact h
              · rw [hmin' i h1 h] at hstack
                simp at hstack
            rw [hii]
      constructor
      · intro hcap
        unfold move_tableau
        simp only [htop, hfind]
        rw [if_neg (by omega)]
      · intro hcap
        unfold move_tableau
        simp only [htop, hfind]
        rw [if_pos (by omega)]
    · intro hall
      simp only [stacks_at] at hall
      have hfind : (List.range' 1 (g.fc.group_size a)).find?
          (fun i => ((g.fc.tableau.getD a []).getD
            ((g.fc.tableau.getD a []).length - i) default).can_top top) = none := by
        rw [List.find?_eq_none]
        intro x hx
        rw [List.mem_range'_1] at hx
        have := hall x hx.1 (by omega)
        rw [this]
        simp
      unfold move_tableau
      simp only [htop, hfind]
  · intro hnone
    unfold move_tableau
    simp only [hnone]

/-- A concrete session: source column 0 is `[7♠, 6♦]`, destination column 1
has top `8♦`; the least stacking depth is 2 (`7♠` on `8♦`) and the capacity
(4 free reserve slots, no empty columns) allows it. -/
def move_example_state : GameState :=
  ⟨⟨[none, none, none, none], [none, none, none, none],
    [[⟨.Spade, 7⟩, ⟨.Diamond, 6⟩], [⟨.Diamond, 8⟩], [⟨.Club, 2⟩], [⟨.Club, 3⟩],
     [⟨.Club, 4⟩], [⟨.Club, 5⟩], [⟨.Club, 6⟩], [⟨.Club, 7⟩]]⟩, [], 0⟩

/-- Witness for C9: the two-card group move is resolved at depth 2. -/
theorem move_tableau_resolution_witness :
    move_tableau move_example_state 0 1 =
      (do_move move_example_state (fun fc => fc.move_tableau_group 0 1 2), Outcome.ok) := by
  have h := (move_tableau_resolution move_example_state 0 1).1 ⟨.Diamond, 8⟩ (by decide)
  exact (h.1 2 (by decide) (by decide) (by decide)
    (fun j h1 h2 => by
      have hj : j = 1 := by omega
      subst hj
      decide)).1 (by decide)

/-! ## Claims C5 and C10: the sweep pass -/

/-- Number of occupied reserve slots. -/
def count_some (rs : List (Option Card)) : Nat := (rs.filterMap id).length

/-- Total number of cards on the tableau. -/
def total_len (t : List (List Card)) : Nat := (t.map List.length).sum

/-- Number of cards outside the foundations (each sweep move removes
exactly one). -/
def rt_count (fc : FreeCell) : Nat := count_some fc.reserve + total_len fc.tableau

/-- The reserve pass is total for a positive counter, decrements it at most
to zero, and removes exactly one reserve card per decrement. -/
theorem sweep_reserve_spec : ∀ (rs f : List (Option Card)) (left : Nat), 1 ≤ left →
    ∃ rs' f' left', sweep_reserve rs f left = some (rs', f', left') ∧
      left' ≤ left ∧ count_some rs + left' = count_some rs' + left
  | [], f, left, _ => ⟨[], f, left, rfl, Nat.le_refl _, rfl⟩
  | none :: rs, f, left, hl => by
      obtain ⟨rs', f', left', hs, hle, hc⟩ := sweep_reserve_spec rs f left hl
      refine ⟨none :: rs', f', left', ?_, hle, ?_⟩
      · simp [sweep_reserve, hs]
      · simpa [count_some] using hc
  | some c :: rs, f, left, hl => by
      by_cases hsh : foundation_should f c = true
      · match left, hl with
        | 1, _ =>
            refine ⟨none :: rs, f.set c.suit.as_index (some c), 0, ?_, by omega, ?_⟩
            · simp [sweep_reserve, hsh]
            · simp [count_some]
        | m + 2, _ =>
            obtain ⟨rs', f', left', hs, hle, hc⟩ :=
              sweep_reserve_spec rs (f.set c.suit.as_index (some c)) (m + 1) (by omega)
            refine ⟨none :: rs', f', left', ?_, by omega, ?_⟩
            · simp [sweep_reserve, hsh, hs]
            · simp only [count_some, List.filterMap_cons] at hc ⊢
              simp at hc ⊢
              omega
      · obtain ⟨rs', f', left', hs, hle, hc⟩ := sweep_reserve_spec rs f left hl
        refine ⟨some c :: rs', f', left', ?_, hle, ?_⟩
        · simp [sweep_reserve, hsh, hs]
        · simp only [count_some, List.filterMap_cons] at hc ⊢
          simp at hc ⊢
          omega

/-- With a zero counter, the first reserve card passing the safety rule
underflows the counter. -/
theorem sweep_reserve_zero : ∀ (rs f : List (Option Card)),
    (∃ c, some c ∈ rs ∧ foundation_should f c = true) →
    sweep_reserve rs f 0 = none
  | [], f, h => by
      obtain ⟨c, hc, _⟩ := h
      simp at hc
  | none :: rs, f, h => by
      obtain ⟨c, hc, hsh⟩ := h
      have hc' : some c ∈ rs := by
        rcases List.mem_cons.mp hc with h | h
        · exact absurd h (by simp)
        · exact h
      simp [sweep_reserve, sweep_reserve_zero rs f ⟨c, hc', hsh⟩]
  | some d :: rs, f, h => by
      by_cases hsh : foundation_should f d = true
      · simp [sweep_reserve, hsh]
      · obtain ⟨c, hc, hshc⟩ := h
        have hc' : some c ∈ rs := by
          rcases List.mem_cons.mp hc with h | h
          · exfalso
            apply hsh
            have hcd : c = d := by
              injection h
            rw [← hcd]
            exact hshc
          · exact h
        simp [sweep_reserve, hsh, sweep_reserve_zero rs f ⟨c, hc', hshc⟩]

/-- The tableau pass pops exactly one card per listed (valid, non-empty,
duplicate-free) column index. -/
theorem sweep_tab_count : ∀ (is : List Nat) (t : List (List Card)) (f : List (Option Card)),
    is.Nodup → (∀ i ∈ is, i < t.length ∧ t.getD i [] ≠ []) →
    total_len (sweep_tab t f is).1 + is.length = total_len t
  | [], t, f, _, _ => by simp [sweep_tab]
  | i :: is, t, f, hnd, hv => by
      rcases List.nodup_cons.mp hnd with ⟨hi, hnd'⟩
      obtain ⟨hilt, hne⟩ := hv i (List.mem_cons_self i is)
      obtain ⟨c, hc⟩ : ∃ c, (t.getD i []).getLast? = some c := by
        cases hl : (t.getD i []).getLast? with
        | none => exact absurd (List.getLast?_eq_none_iff.mp hl) hne
        | some c => exact ⟨c, rfl⟩
      have hset : total_len (t.set i (t.getD i []).dropLast) + 1 = total_len t := by
        have hlen : 1 ≤ (t.getD i []).length :=
          Nat.one_le_iff_ne_zero.mpr (by simpa using hne)
        have hsum := sum_map_set List.length [] t i ((t.getD i []).dropLast) hilt
        simp only [List.length_dropLast] at hsum
        unfold total_len
        omega
      have hv' : ∀ j ∈ is, j < (t.set i (t.getD i []).dropLast).length ∧
          (t.set i (t.getD i []).dropLast).getD j [] ≠ [] := by
        intro j hj
        obtain ⟨h1, h2⟩ := hv j (List.mem_cons_of_mem i hj)
        have hij : i ≠ j := fun h => hi (h ▸ hj)
        rw [List.length_set, getD_set_ne _ _ _ _ _ hij]
        exact ⟨h1, h2⟩
      have ih := sweep_tab_count is (t.set i (t.getD i []).dropLast)
        (f.set c.suit.as_index (some c)) hnd' hv'
      show total_len (sweep_tab t f (i :: is)).1 + (is.length + 1) = total_len t
      unfold sweep_tab
      simp only [hc]
      omega

/-- Every index in `sweep_list` is a valid non-empty column whose top
passes the safety rule. -/
theorem sweep_list_mem (t : List (List Card)) (f : List (Option Card)) :
    ∀ i ∈ sweep_list t f, i < t.length ∧ t.getD i [] ≠ [] := by
  intro i hi
  rw [sweep_list, List.mem_filter] at hi
  obtain ⟨hr, hcond⟩ := hi
  refine ⟨List.mem_range.mp hr, ?_⟩
  cases hl : (t.getD i []).getLast? with
  | none =>
      rw [hl] at hcond
      simp at hcond
  | some c =>
      intro h
      rw [h] at hl
      simp at hl

theorem sweep_list_nodup (t : List (List Card)) (f : List (Option Card)) :
    (sweep_list t f).Nodup :=
  (List.nodup_range _).filter _

/-- **C5 counterexample.** With `max_moves = 0` and a reserve card that
passes the safety rule (the club Ace), the counter decrement underflows:
`sweep_step` has no result at all (a debug-build panic in the source), so
the claim's "for every max_moves" fails at 0. -/
def underflow_board : FreeCell :=
  ⟨[some ⟨.Club, 1⟩, none, none, none],
   [none, none, none, none],
   [[], [], [], [], [], [], [], []]⟩

theorem sweep_step_zero_counterexample :
    underflow_board.sweep_step 0 = none ∧
    underflow_board.should_move_to_foundation ⟨.Club, 1⟩ = true := by
  exact ⟨rfl, by decide⟩

/-- **C5 (amended).** For `max_moves ≥ 1`, one sweep pass (reserve slots
left to right, then tableau tops left to right) moves some `k ≤ max_moves`
cards to the foundations and returns `true` exactly when `k ≥ 1`. -/
theorem sweep_step_spec (fc : FreeCell) (n : Nat) (hn : 1 ≤ n) :
    ∃ fc' r k, fc.sweep_step n = some (fc', r) ∧ k ≤ n ∧
      rt_count fc = rt_count fc' + k ∧ (r = true ↔ 1 ≤ k) := by
  obtain ⟨rs', f1, left, hs, hle, hc⟩ := sweep_reserve_spec fc.reserve fc.foundation n hn
  by_cases hz : left = 0
  · subst hz
    refine ⟨⟨rs', f1, fc.tableau⟩, decide ((0 : Nat) ≠ n), n, ?_, Nat.le_refl n, ?_, ?_⟩
    · unfold FreeCell.sweep_step
      rw [hs]
      simp
    · simp only [rt_count, count_some, total_len] at hc ⊢
      omega
    · constructor
      · intro _
        exact hn
      · intro _
        simp only [ne_eq, decide_eq_true_eq]
        omega
  · have htab := sweep_tab_count ((sweep_list fc.tableau f1).take left) fc.tableau f1
      ((sweep_list_nodup fc.tableau f1).sublist (List.take_sublist _ _))
      (fun i hi => sweep_list_mem fc.tableau f1 i (List.mem_of_mem_take hi))
    have hswlen : ((sweep_list fc.tableau f1).take left).length ≤ left :=
      le_trans (List.length_take_le _ _) (Nat.le_refl _)
    refine ⟨⟨rs', (sweep_tab fc.tableau f1 ((sweep_list fc.tableau f1).take left)).2,
        (sweep_tab fc.tableau f1 ((sweep_list fc.tableau f1).take left)).1⟩,
      decide (left - ((sweep_list fc.tableau f1).take left).length ≠ n),
      (n - left) + ((sweep_list fc.tableau f1).take left).length, ?_, by omega, ?_, ?_⟩
    · unfold FreeCell.sweep_step
      simp only [hs]
      rw [if_pos (show left ≠ 0 from hz)]
    · simp only [rt_count, count_some, total_len] at hc htab ⊢
      omega
    · simp only [ne_eq, decide_eq_true_eq]
      omega

/-- Witness for C5's amended theorem at a concrete board and
`max_moves = 3`. -/
theorem sweep_step_spec_witness :
    ∃ fc' r k, underflow_board.sweep_step 3 = some (fc', r) ∧ k ≤ 3 ∧
      rt_count underflow_board = rt_count fc' + k ∧ (r = true ↔ 1 ≤ k) :=
  sweep_step_spec underflow_board 3 (by decide)

/-- **C10.** The sweep counter never underflows when `max_moves ≥ 1`
(`sweep_step` is total there); with `max_moves = 0` and a reserve card
passing the safety rule, the `0 - 1` decrement underflows and the
operation has no result. -/
theorem sweep_counter_safety :
    (∀ (fc : FreeCell) (n : Nat), 1 ≤ n → (fc.sweep_step n).isSome = true) ∧
    (∀ fc : FreeCell,
      (∃ c, some c ∈ fc.reserve ∧ fc.should_move_to_foundation c = true) →
      fc.sweep_step 0 = none) := by
  constructor
  · intro fc n hn
    obtain ⟨fc', r, k, hs, _, _, _⟩ := sweep_step_spec fc n hn
    rw [hs]
    rfl
  · intro fc h
    unfold FreeCell.sweep_step
    rw [sweep_reserve_zero fc.reserve fc.foundation h]

/-- Witness for C10 at concrete boards. -/
theorem sweep_counter_safety_witness :
    (example_board.sweep_step 1).isSome = true ∧
    underflow_board.sweep_step 0 = none :=
  ⟨sweep_counter_safety.1 example_board 1 (Nat.le_refl 1),
   sweep_counter_safety.2 underflow_board ⟨⟨.Club, 1⟩, by decide, by decide⟩⟩

/-! ## Claim C1: the 52-card conservation invariant

The cards of a board are counted as a multiset: reserve cards, tableau
cards, and — for each non-empty foundation slot — the whole pile of its
suit from the Ace up to the stored top card. -/

def opt_ms : Option Card → Multiset Card
  | none => 0
  | some c => {c}

/-- The pile a foundation slot stands for. -/
def pile_ms : Option Card → Multiset Card
  | none => 0
  | some c => ((List.range c.value).map (fun k => (⟨c.suit, k + 1⟩ : Card)) : Multiset Card)

def reserve_ms (rs : List (Option Card)) : Multiset Card := (rs.map opt_ms).sum

def found_ms (f : List (Option Card)) : Multiset Card := (f.map pile_ms).sum

def tab_ms (t : List (List Card)) : Multiset Card :=
  (t.map (fun col : List Card => (col : Multiset Card))).sum

def cards_of (fc : FreeCell) : Multiset Card :=
  reserve_ms fc.reserve + found_ms fc.foundation + tab_ms fc.tableau

def full_deck : Multiset Card := (full_deck_list : Multiset Card)

/-- Foundation well-formedness: a stored card sits in its own suit's slot. -/
def found_ok (f : List (Option Card)) : Prop :=
  ∀ i c, f.getD i none = some c → c.suit.as_index = i

/-- The board invariant preserved by every engine operation. -/
def board_inv (fc : FreeCell) : Prop :=
  cards_of fc = full_deck ∧ found_ok fc.foundation ∧
    fc.reserve.length = 4 ∧ fc.foundation.length = 4 ∧ fc.tableau.length = 8

theorem as_index_inj (s1 s2 : Suit) (h : s1.as_index = s2.as_index) : s1 = s2 := by
  cases s1 <;> cases s2 <;> first | rfl | simp [Suit.as_index] at h

theorem as_index_lt (s : Suit) : s.as_index < 4 := by
  cases s <;> simp [Suit.as_index]

/-- Growing a foundation pile by one legal card adds exactly that card. -/
theorem pile_succ (f : List (Option Card)) (c : Card) (hok : found_ok f)
    (hcan : can_succeed_found f c = true) :
    pile_ms (some c) = pile_ms (f.getD c.suit.as_index none) + {c} := by
  unfold can_succeed_found Card.can_succeed at hcan
  cases hf : f.getD c.suit.as_index none with
  | none =>
      rw [hf] at hcan
      have hv : c.value = 1 := by simpa using hcan
      have hc : c = ⟨c.suit, 1⟩ := by
        cases c
        simp_all
      rw [hc]
      rfl
  | some d =>
      rw [hf] at hcan
      have hv : c.value = d.value + 1 := by simpa using hcan
      have hsuit : d.suit = c.suit :=
        as_index_inj d.suit c.suit (hok c.suit.as_index d hf)
      show pile_ms (some c) = pile_ms (some d) + {c}
      simp only [pile_ms]
      rw [hv, List.range_succ, List.map_append]
      have hc : (⟨c.suit, d.value + 1⟩ : Card) = c := by
        cases c
        simp_all
      simp only [hsuit]
      have hmap : List.map (fun k => (⟨c.suit, k + 1⟩ : Card)) [d.value] = [c] := by
        simp [hc]
      rw [hmap]
      rw [show ({c} : Multiset Card) = (↑[c] : Multiset Card) from rfl, ← Multiset.coe_add]

theorem reserve_ms_cons (o : Option Card) (rs : List (Option Card)) :
    reserve_ms (o :: rs) = opt_ms o + reserve_ms rs := by
  simp [reserve_ms]

/-- Emptying an occupied reserve slot removes exactly its card. -/
theorem reserve_ms_remove (rs : List (Option Card)) (n : Nat) (c : Card)
    (hn : n < rs.length) (hc : rs.getD n none = some c) :
    reserve_ms (rs.set n none) + {c} = reserve_ms rs := by
  have h := sum_map_set opt_ms none rs n none hn
  rw [hc] at h
  unfold reserve_ms
  have h2 : (List.map opt_ms (rs.set n none)).sum + ({c} : Multiset Card)
      = (List.map opt_ms rs).sum + opt_ms none := by
    calc (List.map opt_ms (rs.set n none)).sum + ({c} : Multiset Card)
        = (List.map opt_ms (rs.set n none)).sum + opt_ms (some c) := rfl
      _ = (List.map opt_ms rs).sum + opt_ms none := h
  calc (List.map opt_ms (rs.set n none)).sum + ({c} : Multiset Card)
      = (List.map opt_ms rs).sum + opt_ms none := h2
    _ = (List.map opt_ms rs).sum := by
        show _ + 0 = _
        rw [add_zero]

/-- Placing a legal card on its foundation adds exactly that card. -/
theorem found_ms_add (f : List (Option Card)) (c : Card) (hok : found_ok f)
    (hlen : f.length = 4) (hcan : can_succeed_found f c = true) :
    found_ms (f.set c.suit.as_index (some c)) = found_ms f + {c} := by
  have hlt : c.suit.as_index < f.length := by
    rw [hlen]
    exact as_index_lt c.suit
  have h := sum_map_set pile_ms none f c.suit.as_index (some c) hlt
  rw [pile_succ f c hok hcan] at h
  unfold found_ms
  have h2 : (List.map pile_ms (f.set c.suit.as_index (some c))).sum
        + pile_ms (f.getD c.suit.as_index none)
      = ((List.map pile_ms f).sum + {c}) + pile_ms (f.getD c.suit.as_index none) := by
    rw [h]
    abel
  exact add_right_cancel h2

theorem found_ok_add (f : List (Option Card)) (c : Card) (hok : found_ok f)
    (hlen : f.length = 4) :
    found_ok (f.set c.suit.as_index (some c)) := by
  intro i d hd
  by_cases hi : c.suit.as_index = i
  · rw [← hi] at hd
    rw [getD_set_self _ _ _ _ (by rw [hlen]; exact as_index_lt c.suit)] at hd
    injection hd with hd
    rw [← hd, hi]
  · rw [getD_set_ne _ _ _ _ _ hi] at hd
    exact hok i d hd

/-- Appending a card to a tableau column adds exactly that card. -/
theorem tab_ms_add (t : List (List Card)) (p : Nat) (c : Card) (hp : p < t.length) :
    tab_ms (t.set p ((t.getD p []) ++ [c])) = tab_ms t + {c} := by
  have h := sum_map_set (fun col : List Card => (col : Multiset Card)) [] t p ((t.getD p []) ++ [c]) hp
  simp only at h
  have hco : ((t.getD p [] ++ [c] : List Card) : Multiset Card)
      = (↑(t.getD p []) : Multiset Card) + {c} := by
    rw [show ({c} : Multiset Card) = (↑[c] : Multiset Card) from rfl, ← Multiset.coe_add]
  rw [hco] at h
  unfold tab_ms
  have h2 : (List.map (fun col : List Card => (col : Multiset Card))
        (t.set p (t.getD p [] ++ [c]))).sum + (↑(t.getD p []) : Multiset Card)
      = ((List.map (fun col : List Card => (col : Multiset Card)) t).sum + {c})
        + (↑(t.getD p []) : Multiset Card) := by
    rw [h]
    abel
  exact add_right_cancel h2

theorem getLast?_dropLast_append (l : List Card) (c : Card)
    (h : l.getLast? = some c) : l.dropLast ++ [c] = l := by
  induction l using List.reverseRecOn with
  | nil => simp at h
  | append_singleton xs x _ =>
      rw [List.getLast?_concat] at h
      injection h with h
      rw [← h, List.dropLast_concat]

/-- Popping a column's top card removes exactly that card. -/
theorem tab_ms_pop (t : List (List Card)) (p : Nat) (c : Card) (hp : p < t.length)
    (hc : (t.getD p []).getLast? = some c) :
    tab_ms (t.set p (t.getD p []).dropLast) + {c} = tab_ms t := by
  have h := sum_map_set (fun col : List Card => (col : Multiset Card)) [] t p (t.getD p []).dropLast hp
  simp only at h
  have hsplit : (↑(t.getD p []) : Multiset Card)
      = (↑(t.getD p []).dropLast : Multiset Card) + {c} := by
    conv_lhs => rw [← getLast?_dropLast_append (t.getD p []) c hc]
    rw [show ({c} : Multiset Card) = (↑[c] : Multiset Card) from rfl, ← Multiset.coe_add]
  rw [hsplit] at h
  unfold tab_ms
  have h2 : ((List.map (fun col : List Card => (col : Multiset Card))
        (t.set p (t.getD p []).dropLast)).sum + ({c} : Multiset Card))
        + (↑(t.getD p []).dropLast : Multiset Card)
      = (List.map (fun col : List Card => (col : Multiset Card)) t).sum
        + (↑(t.getD p []).dropLast : Multiset Card) := by
    calc ((List.map (fun col : List Card => (col : Multiset Card))
          (t.set p (t.getD p []).dropLast)).sum + ({c} : Multiset Card))
          + (↑(t.getD p []).dropLast : Multiset Card)
        = (List.map (fun col : List Card => (col : Multiset Card))
            (t.set p (t.getD p []).dropLast)).sum
            + ((↑(t.getD p []).dropLast : Multiset Card) + {c}) := by abel
      _ = (List.map (fun col : List Card => (col : Multiset Card)) t).sum
            + (↑(t.getD p []).dropLast : Multiset Card) := h
  exact add_right_cancel h2

/-- Filling the first free reserve slot adds exactly the card. -/
theorem reserve_ms_fill : ∀ (rs : List (Option Card)) (c : Card),
    rs.any (fun r => r.isNone) = true →
    reserve_ms (fill_first rs c) = reserve_ms rs + {c} ∧
      (fill_first rs c).length = rs.length
  | [], c, h => by simp at h
  | none :: rs, c, _ => by
      constructor
      · rw [show fill_first (none :: rs) c = some c :: rs from rfl,
          reserve_ms_cons, reserve_ms_cons]
        show ({c} : Multiset Card) + _ = (0 : Multiset Card) + _ + _
        abel
      · rfl
  | some d :: rs, c, h => by
      have htail : rs.any (fun r => r.isNone) = true := by
        simpa [Option.isNone] using h
      obtain ⟨h1, h2⟩ := reserve_ms_fill rs c htail
      constructor
      · rw [show fill_first (some d :: rs) c = some d :: fill_first rs c from rfl,
          reserve_ms_cons, reserve_ms_cons, h1, add_assoc]
      · show (some d :: fill_first rs c).length = (some d :: rs).length
        simp [h2]

/-- Moving a group between two distinct columns preserves the card
multiset. -/
theorem tab_ms_move (t : List (List Card)) (a b s : Nat) (hab : a ≠ b)
    (ha : a < t.length) (hb : b < t.length) :
    tab_ms ((t.set a ((t.getD a []).take s)).set b
      ((t.getD b []) ++ (t.getD a []).drop s)) = tab_ms t := by
  have h1 := sum_map_set (fun col : List Card => (col : Multiset Card)) [] t a ((t.getD a []).take s) ha
  have hb1 : b < (t.set a ((t.getD a []).take s)).length := by
    rw [List.length_set]
    exact hb
  have h2 := sum_map_set (fun col : List Card => (col : Multiset Card)) []
    (t.set a ((t.getD a []).take s)) b ((t.getD b []) ++ (t.getD a []).drop s) hb1
  rw [getD_set_ne _ _ _ _ _ hab] at h2
  simp only at h1 h2
  have hco : ((t.getD b [] ++ (t.getD a []).drop s : List Card) : Multiset Card)
      = (↑(t.getD b []) : Multiset Card) + ↑((t.getD a []).drop s) := by
    simp
  rw [hco] at h2
  have hsum : (↑((t.getD a []).take s) : Multiset Card) + ↑((t.getD a []).drop s)
      = ↑(t.getD a []) := by
    rw [Multiset.coe_add]
    congr 1
    exact List.take_append_drop s (t.getD a [])
  unfold tab_ms
  set T2 := (List.map (fun col : List Card => (col : Multiset Card))
    ((t.set a ((t.getD a []).take s)).set b
      ((t.getD b []) ++ (t.getD a []).drop s))).sum with hT2
  set T1 := (List.map (fun col : List Card => (col : Multiset Card))
    (t.set a ((t.getD a []).take s))).sum with hT1
  set T := (List.map (fun col : List Card => (col : Multiset Card)) t).sum with hT
  set TK := (↑((t.getD a []).take s) : Multiset Card) with hTK
  set DR := (↑((t.getD a []).drop s) : Multiset Card) with hDR
  set CA := (↑(t.getD a []) : Multiset Card) with hCA
  set CB := (↑(t.getD b []) : Multiset Card) with hCB
  have key : T2 + (CB + CA) = T + (CB + CA) := by
    calc T2 + (CB + CA) = (T2 + CB) + CA := by abel
      _ = (T1 + (CB + DR)) + CA := by rw [h2]
      _ = (T1 + CA) + (CB + DR) := by abel
      _ = (T + TK) + (CB + DR) := by rw [h1]
      _ = T + (CB + (TK + DR)) := by abel
      _ = T + (CB + CA) := by rw [hsum]
  exact add_right_cancel key

theorem should_imp_can (f : List (Option Card)) (c : Card)
    (h : foundation_should f c = true) : can_succeed_found f c = true := by
  unfold foundation_should at h
  cases hc : can_succeed_found f c with
  | true => rfl
  | false =>
      rw [hc] at h
      simp at h

/-- Reserve → foundation preserves the invariant. -/
theorem inv_res_to_found (fc : FreeCell) (n : Nat) (c : Card) (hinv : board_inv fc)
    (hn : n < 4) (hc : fc.reserve_at n = some c)
    (hm : fc.can_move_to_foundation c = true) :
    board_inv ((fc.remove_reserve n).add_to_foundation c) := by
  obtain ⟨hcards, hok, hr, hf, ht⟩ := hinv
  have hrm := reserve_ms_remove fc.reserve n c (by rw [hr]; exact hn)
    (show fc.reserve.getD n none = some c from hc)
  have hfm := found_ms_add fc.foundation c hok hf
    (show can_succeed_found fc.foundation c = true from hm)
  refine ⟨?_, found_ok_add _ _ hok hf, ?_, ?_, ht⟩
  · show reserve_ms (fc.reserve.set n none)
      + found_ms (fc.foundation.set c.suit.as_index (some c)) + tab_ms fc.tableau = full_deck
    rw [hfm]
    unfold cards_of at hcards
    rw [← hcards, ← hrm]
    abel
  · show (fc.reserve.set n none).length = 4
    rw [List.length_set]
    exact hr
  · show (fc.foundation.set c.suit.as_index (some c)).length = 4
    rw [List.length_set]
    exact hf

/-- Reserve → tableau preserves the invariant. -/
theorem inv_res_to_tab (fc : FreeCell) (n p : Nat) (c : Card) (hinv : board_inv fc)
    (hn : n < 4) (hp : p < 8) (hc : fc.reserve_at n = some c) :
    board_inv ((fc.remove_reserve n).add_to_tableau c p) := by
  obtain ⟨hcards, hok, hr, hf, ht⟩ := hinv
  have hrm := reserve_ms_remove fc.reserve n c (by rw [hr]; exact hn)
    (show fc.reserve.getD n none = some c from hc)
  have htm := tab_ms_add fc.tableau p c (by rw [ht]; exact hp)
  refine ⟨?_, hok, ?_, hf, ?_⟩
  · show reserve_ms (fc.reserve.set n none) + found_ms fc.foundation
      + tab_ms (fc.tableau.set p ((fc.tableau.getD p []) ++ [c])) = full_deck
    rw [htm]
    unfold cards_of at hcards
    rw [← hcards, ← hrm]
    abel
  · show (fc.reserve.set n none).length = 4
    rw [List.length_set]
    exact hr
  · show (fc.tableau.set p ((fc.tableau.getD p []) ++ [c])).length = 8
    rw [List.length_set]
    exact ht

/-- Tableau top → foundation preserves the invariant. -/
theorem inv_tab_to_found (fc : FreeCell) (a : Nat) (c : Card) (hinv : board_inv fc)
    (ha : a < 8) (hc : (fc.tableau.getD a []).getLast? = some c)
    (hm : fc.can_move_to_foundation c = true) :
    board_inv ((fc.pop_tableau a).add_to_foundation c) := by
  obtain ⟨hcards, hok, hr, hf, ht⟩ := hinv
  have htm := tab_ms_pop fc.tableau a c (by rw [ht]; exact ha) hc
  have hfm := found_ms_add fc.foundation c hok hf
    (show can_succeed_found fc.foundation c = true from hm)
  refine ⟨?_, found_ok_add _ _ hok hf, hr, ?_, ?_⟩
  · show reserve_ms fc.reserve + found_ms (fc.foundation.set c.suit.as_index (some c))
      + tab_ms (fc.tableau.set a (fc.tableau.getD a []).dropLast) = full_deck
    rw [hfm]
    unfold cards_of at hcards
    rw [← hcards, ← htm]
    abel
  · show (fc.foundation.set c.suit.as_index (some c)).length = 4
    rw [List.length_set]
    exact hf
  · show (fc.tableau.set a (fc.tableau.getD a []).dropLast).length = 8
    rw [List.length_set]
    exact ht

/-- Tableau top → reserve preserves the invariant. -/
theorem inv_tab_to_res (fc : FreeCell) (a : Nat) (c : Card) (hinv : board_inv fc)
    (ha : a < 8) (hc : (fc.tableau.getD a []).getLast? = some c)
    (hfree : fc.reserve_free = true) :
    board_inv ((fc.pop_tableau a).add_to_reserve c) := by
  obtain ⟨hcards, hok, hr, hf, ht⟩ := hinv
  have htm := tab_ms_pop fc.tableau a c (by rw [ht]; exact ha) hc
  obtain ⟨hfill, hfill_len⟩ := reserve_ms_fill fc.reserve c
    (show fc.reserve.any (fun r => r.isNone) = true from hfree)
  refine ⟨?_, hok, ?_, hf, ?_⟩
  · show reserve_ms (fill_first fc.reserve c) + found_ms fc.foundation
      + tab_ms (fc.tableau.set a (fc.tableau.getD a []).dropLast) = full_deck
    rw [hfill]
    unfold cards_of at hcards
    rw [← hcards, ← htm]
    abel
  · show (fill_first fc.reserve c).length = 4
    rw [hfill_len]
    exact hr
  · show (fc.tableau.set a (fc.tableau.getD a []).dropLast).length = 8
    rw [List.length_set]
    exact ht

/-- A tableau group move preserves the invariant. -/
theorem inv_tab_move (fc : FreeCell) (a b n : Nat) (hinv : board_inv fc)
    (ha : a < 8) (hb : b < 8) (hab : a ≠ b) :
    board_inv (fc.move_tableau_group a b n) := by
  obtain ⟨hcards, hok, hr, hf, ht⟩ := hinv
  have htm := tab_ms_move fc.tableau a b ((fc.tableau.getD a []).length - n) hab
    (by rw [ht]; exact ha) (by rw [ht]; exact hb)
  refine ⟨?_, hok, hr, hf, ?_⟩
  · show reserve_ms fc.reserve + found_ms fc.foundation
      + tab_ms ((fc.tableau.set a
          ((fc.tableau.getD a []).take ((fc.tableau.getD a []).length - n))).set b
        ((fc.tableau.getD b []) ++ (fc.tableau.getD a []).drop
          ((fc.tableau.getD a []).length - n))) = full_deck
    rw [htm]
    exact hcards
  · show ((fc.tableau.set a
        ((fc.tableau.getD a []).take ((fc.tableau.getD a []).length - n))).set b
      ((fc.tableau.getD b []) ++ (fc.tableau.getD a []).drop
        ((fc.tableau.getD a []).length - n))).length = 8
    rw [List.length_set, List.length_set]
    exact ht

/-- The reserve pass only transfers cards from the reserve to the
foundations, preserving the combined multiset and foundation
well-formedness. -/
theorem sweep_reserve_inv : ∀ (rs f : List (Option Card)) (left : Nat)
    (rs' f' : List (Option Card)) (left' : Nat),
    sweep_reserve rs f left = some (rs', f', left') → found_ok f → f.length = 4 →
    reserve_ms rs' + found_ms f' = reserve_ms rs + found_ms f ∧ found_ok f' ∧
      f'.length = 4 ∧ rs'.length = rs.length
  | [], f, left, rs', f', left', heq, hok, hlen => by
      simp only [sweep_reserve, Option.some.injEq, Prod.mk.injEq] at heq
      obtain ⟨h1, ⟨h2, h3⟩⟩ := heq
      subst h1
      subst h2
      exact ⟨rfl, hok, hlen, rfl⟩
  | none :: rs, f, left, rs', f', left', heq, hok, hlen => by
      unfold sweep_reserve at heq
      cases hrec : sweep_reserve rs f left with
      | none =>
          rw [hrec] at heq
          simp at heq
      | some p =>
          obtain ⟨xs, xf, xl⟩ := p
          rw [hrec] at heq
          simp only [Option.map_some', Option.some.injEq, Prod.mk.injEq] at heq
          obtain ⟨h1, ⟨h2, h3⟩⟩ := heq
          subst h1
          subst h2
          obtain ⟨ih1, ih2, ih3, ih4⟩ := sweep_reserve_inv rs f left xs xf xl hrec hok hlen
          refine ⟨?_, ih2, ih3, ?_⟩
          · rw [reserve_ms_cons, reserve_ms_cons]
            show (0 : Multiset Card) + _ + _ = (0 : Multiset Card) + _ + _
            rw [zero_add, zero_add]
            exact ih1
          · simpa using ih4
  | some c :: rs, f, left, rs', f', left', heq, hok, hlen => by
      by_cases hsh : foundation_should f c = true
      · rcases left with _ | _ | m
        · unfold sweep_reserve at heq
          rw [if_pos hsh] at heq
          have heq2 : (none : Option (List (Option Card) × List (Option Card) × Nat))
              = some (rs', f', left') := heq
          simp at heq2
        · unfold sweep_reserve at heq
          rw [if_pos hsh] at heq
          have heq2 : some (none :: rs, f.set c.suit.as_index (some c), 0)
              = some (rs', f', left') := heq
          simp only [Option.some.injEq, Prod.mk.injEq] at heq2
          obtain ⟨h1, ⟨h2, h3⟩⟩ := heq2
          subst h1
          subst h2
          have hfm := found_ms_add f c hok hlen (should_imp_can f c hsh)
          refine ⟨?_, found_ok_add f c hok hlen, ?_, ?_⟩
          · rw [reserve_ms_cons, reserve_ms_cons, hfm]
            show (0 : Multiset Card) + _ + _ = opt_ms (some c) + _ + _
            rw [zero_add, show opt_ms (some c) = ({c} : Multiset Card) from rfl]
            abel
          · rw [List.length_set]
            exact hlen
          · rfl
        · unfold sweep_reserve at heq
          rw [if_pos hsh] at heq
          have heq2 : (sweep_reserve rs (f.set c.suit.as_index (some c)) (m + 1)).map
              (fun p => ((none : Option Card) :: p.1, p.2.1, p.2.2))
              = some (rs', f', left') := heq
          cases hrec : sweep_reserve rs (f.set c.suit.as_index (some c)) (m + 1) with
          | none =>
              rw [hrec] at heq2
              simp at heq2
          | some p =>
              obtain ⟨xs, xf, xl⟩ := p
              rw [hrec] at heq2
              simp only [Option.map_some', Option.some.injEq, Prod.mk.injEq] at heq2
              obtain ⟨h1, ⟨h2, h3⟩⟩ := heq2
              subst h1
              subst h2
              have hfm := found_ms_add f c hok hlen (should_imp_can f c hsh)
              obtain ⟨ih1, ih2, ih3, ih4⟩ := sweep_reserve_inv rs
                (f.set c.suit.as_index (some c)) (m + 1) xs xf xl hrec
                (found_ok_add f c hok hlen) (by rw [List.length_set]; exact hlen)
              refine ⟨?_, ih2, ih3, ?_⟩
              · rw [reserve_ms_cons, reserve_ms_cons]
                rw [hfm] at ih1
                show (0 : Multiset Card) + _ + _ = opt_ms (some c) + _ + _
                rw [zero_add, show opt_ms (some c) = ({c} : Multiset Card) from rfl]
                calc reserve_ms xs + found_ms xf
                    = reserve_ms rs + (found_ms f + {c}) := ih1
                  _ = {c} + reserve_ms rs + found_ms f := by abel
              · simpa using ih4
      · unfold sweep_reserve at heq
        rw [if_neg hsh] at heq
        cases hrec : sweep_reserve rs f left with
        | none =>
            rw [hrec] at heq
            simp at heq
        | some p =>
            obtain ⟨xs, xf, xl⟩ := p
            rw [hrec] at heq
            simp only [Option.map_some', Option.some.injEq, Prod.mk.injEq] at heq
            obtain ⟨h1, ⟨h2, h3⟩⟩ := heq
            subst h1
            subst h2
            obtain ⟨ih1, ih2, ih3, ih4⟩ := sweep_reserve_inv rs f left xs xf xl hrec hok hlen
            refine ⟨?_, ih2, ih3, ?_⟩
            · rw [reserve_ms_cons, reserve_ms_cons]
              rw [add_assoc, add_assoc, ih1]
            · simpa using ih4

theorem tab_ms_cons (col : List Card) (t : List (List Card)) :
    tab_ms (col :: t) = ↑col + tab_ms t := by
  simp [tab_ms]

theorem single_le_tab_ms : ∀ (t : List (List Card)) (i : Nat), i < t.length →
    (↑(t.getD i []) : Multiset Card) ≤ tab_ms t
  | [], i, h => by simp at h
  | col :: t, 0, _ => by
      rw [tab_ms_cons]
      exact self_le_add_right _ _
  | col :: t, i + 1, h => by
      rw [tab_ms_cons]
      show (↑(t.getD i []) : Multiset Card) ≤ ↑col + tab_ms t
      exact le_trans (single_le_tab_ms t i (by simpa using h)) (self_le_add_left _ _)

theorem pair_le_tab_ms : ∀ (t : List (List Card)) (i j : Nat), i ≠ j → i < t.length →
    j < t.length → (↑(t.getD i []) : Multiset Card) + ↑(t.getD j []) ≤ tab_ms t
  | [], i, j, _, hi, _ => by simp at hi
  | col :: t, 0, 0, hij, _, _ => absurd rfl hij
  | col :: t, 0, j + 1, _, _, hj => by
      rw [tab_ms_cons]
      show (↑col : Multiset Card) + ↑(t.getD j []) ≤ ↑col + tab_ms t
      exact add_le_add_left (single_le_tab_ms t j (by simpa using hj)) _
  | col :: t, i + 1, 0, _, hi, _ => by
      rw [tab_ms_cons]
      show (↑(t.getD i []) : Multiset Card) + ↑col ≤ ↑col + tab_ms t
      rw [add_comm]
      exact add_le_add_left (single_le_tab_ms t i (by simpa using hi)) _
  | col :: t, i + 1, j + 1, hij, hi, hj => by
      rw [tab_ms_cons]
      show (↑(t.getD i []) : Multiset Card) + ↑(t.getD j []) ≤ ↑col + tab_ms t
      exact le_trans (pair_le_tab_ms t i j (by omega) (by simpa using hi)
        (by simpa using hj)) (self_le_add_left _ _)

theorem full_deck_nodup : full_deck.Nodup := by
  show (↑full_deck_list : Multiset Card).Nodup
  rw [Multiset.coe_nodup]
  decide

theorem card_ext (c d : Card) (hs : c.suit = d.suit) (hv : c.value = d.value) : c = d := by
  cases c
  cases d
  simp_all

/-- Two cards of the same suit that can both succeed the same foundation
slot are the same card. -/
theorem can_succeed_same_value (f : List (Option Card)) (c d : Card)
    (hsuit : d.suit = c.suit)
    (hc : can_succeed_found f c = true) (hd : can_succeed_found f d = true) :
    d = c := by
  unfold can_succeed_found Card.can_succeed at hc hd
  rw [hsuit] at hd
  cases hslot : f.getD c.suit.as_index none with
  | none =>
      rw [hslot] at hc hd
      have h1 : c.value = 1 := by simpa using hc
      have h2 : d.value = 1 := by simpa using hd
      exact card_ext d c hsuit (by omega)
  | some e =>
      rw [hslot] at hc hd
      have h1 : c.value = e.value + 1 := by simpa using hc
      have h2 : d.value = e.value + 1 := by simpa using hd
      exact card_ext d c hsuit (by omega)

theorem getLast?_mem (l : List Card) (c : Card) (h : l.getLast? = some c) : c ∈ l := by
  rw [← getLast?_dropLast_append l c h]
  simp

/-- The tableau pass only transfers cards from the tableau to the
foundations, preserving the combined multiset. -/
theorem sweep_tab_inv : ∀ (is : List Nat) (t : List (List Card)) (f : List (Option Card))
    (C : Multiset Card),
    is.Nodup →
    (∀ i ∈ is, i < t.length ∧ ∃ c, (t.getD i []).getLast? = some c ∧
      can_succeed_found f c = true) →
    found_ok f → f.length = 4 →
    tab_ms t + found_ms f + C = full_deck →
    tab_ms (sweep_tab t f is).1 + found_ms (sweep_tab t f is).2 + C = full_deck ∧
      found_ok (sweep_tab t f is).2 ∧ (sweep_tab t f is).2.length = 4 ∧
      (sweep_tab t f is).1.length = t.length
  | [], t, f, C, _, _, hok, hlen, hinv => ⟨hinv, hok, hlen, rfl⟩
  | i :: is, t, f, C, hnd, hv, hok, hlen, hinv => by
      rcases List.nodup_cons.mp hnd with ⟨hi_not, hnd'⟩
      obtain ⟨hilt, c, hc, hcan⟩ := hv i (List.mem_cons_self i is)
      have hstep : sweep_tab t f (i :: is)
          = sweep_tab (t.set i (t.getD i []).dropLast)
              (f.set c.suit.as_index (some c)) is := by
        have h0 : sweep_tab t f (i :: is)
            = match (t.getD i []).getLast? with
              | some c => sweep_tab (t.set i (t.getD i []).dropLast)
                  (f.set c.suit.as_index (some c)) is
              | none => sweep_tab t f is := rfl
        rw [h0, hc]
      have htm := tab_ms_pop t i c hilt hc
      have hfm := found_ms_add f c hok hlen hcan
      have hinv' : tab_ms (t.set i (t.getD i []).dropLast)
          + found_ms (f.set c.suit.as_index (some c)) + C = full_deck := by
        rw [hfm, ← hinv, ← htm]
        abel
      have hv' : ∀ j ∈ is, j < (t.set i (t.getD i []).dropLast).length ∧
          ∃ d, ((t.set i (t.getD i []).dropLast).getD j []).getLast? = some d ∧
            can_succeed_found (f.set c.suit.as_index (some c)) d = true := by
        intro j hj
        obtain ⟨hjlt, d, hd, hcand⟩ := hv j (List.mem_cons_of_mem i hj)
        have hij : i ≠ j := fun h => hi_not (h ▸ hj)
        rw [List.length_set, getD_set_ne _ _ _ _ _ hij]
        refine ⟨hjlt, d, hd, ?_⟩
        by_cases hsuit : d.suit = c.suit
        · exfalso
          have hdc : d = c := can_succeed_same_value f c d hsuit hcan hcand
          subst hdc
          have hm_i : d ∈ t.getD i [] := getLast?_mem _ _ hc
          have hm_j : d ∈ t.getD j [] := getLast?_mem _ _ hd
          have hpair := pair_le_tab_ms t i j hij hilt hjlt
          have htle : tab_ms t ≤ full_deck := by
            rw [← hinv]
            exact le_trans (self_le_add_right _ _) (self_le_add_right _ _)
          have hcount2 : 2 ≤ Multiset.count d
              ((↑(t.getD i []) : Multiset Card) + ↑(t.getD j [])) := by
            rw [Multiset.count_add]
            have h1 : 1 ≤ Multiset.count d (↑(t.getD i []) : Multiset Card) :=
              Multiset.one_le_count_iff_mem.mpr (by simpa using hm_i)
            have h2 : 1 ≤ Multiset.count d (↑(t.getD j []) : Multiset Card) :=
              Multiset.one_le_count_iff_mem.mpr (by simpa using hm_j)
            omega
          have hle1 : Multiset.count d full_deck ≤ 1 :=
            Multiset.nodup_iff_count_le_one.mp full_deck_nodup d
          have hchain := le_trans hcount2 (le_trans
            (Multiset.count_le_of_le d hpair) (Multiset.count_le_of_le d htle))
          omega
        · unfold can_succeed_found at hcand ⊢
          rw [getD_set_ne _ _ _ _ _ (fun h => hsuit (as_index_inj d.suit c.suit h.symm))]
          exact hcand
      obtain ⟨r1, r2, r3, r4⟩ := sweep_tab_inv is (t.set i (t.getD i []).dropLast)
        (f.set c.suit.as_index (some c)) C hnd' hv'
        (found_ok_add f c hok hlen) (by rw [List.length_set]; exact hlen) hinv'
      rw [hstep]
      refine ⟨r1, r2, r3, ?_⟩
      rw [r4, List.length_set]

theorem sweep_list_mem_top (t : List (List Card)) (f : List (Option Card)) :
    ∀ i ∈ sweep_list t f, ∃ c, (t.getD i []).getLast? = some c ∧
      foundation_should f c = true := by
  intro i hi
  rw [sweep_list, List.mem_filter] at hi
  obtain ⟨_, hcond⟩ := hi
  cases hl : (t.getD i []).getLast? with
  | none =>
      rw [hl] at hcond
      simp at hcond
  | some c =>
      rw [hl] at hcond
      exact ⟨c, rfl, hcond⟩

/-- One sweep step preserves the board invariant. -/
theorem inv_sweep (fc fc' : FreeCell) (n : Nat) (r : Bool) (hinv : board_inv fc)
    (hs : fc.sweep_step n = some (fc', r)) : board_inv fc' := by
  obtain ⟨hcards, hok, hr, hf, ht⟩ := hinv
  unfold FreeCell.sweep_step at hs
  cases hres : sweep_reserve fc.reserve fc.foundation n with
  | none =>
      rw [hres] at hs
      simp at hs
  | some p =>
      obtain ⟨rs1, f1, left⟩ := p
      rw [hres] at hs
      have hs2 : (if left ≠ 0 then
            some ((⟨rs1, (sweep_tab fc.tableau f1 ((sweep_list fc.tableau f1).take left)).2,
              (sweep_tab fc.tableau f1 ((sweep_list fc.tableau f1).take left)).1⟩ : FreeCell),
              decide (left - ((sweep_list fc.tableau f1).take left).length ≠ n))
          else some ((⟨rs1, f1, fc.tableau⟩ : FreeCell), decide ((0 : Nat) ≠ n)))
          = some (fc', r) := hs
      obtain ⟨hms, hok1, hf1, hrs1⟩ := sweep_reserve_inv fc.reserve fc.foundation n
        rs1 f1 left hres hok hf
      by_cases hz : left ≠ 0
      · rw [if_pos hz] at hs2
        simp only [Option.some.injEq, Prod.mk.injEq] at hs2
        obtain ⟨hfc, hrr⟩ := hs2
        have hswnd : ((sweep_list fc.tableau f1).take left).Nodup :=
          (sweep_list_nodup fc.tableau f1).sublist (List.take_sublist _ _)
        have hswv : ∀ i ∈ (sweep_list fc.tableau f1).take left, i < fc.tableau.length ∧
            ∃ c, (fc.tableau.getD i []).getLast? = some c ∧
              can_succeed_found f1 c = true := by
          intro i hi
          have himem := List.mem_of_mem_take hi
          obtain ⟨hlt, _⟩ := sweep_list_mem fc.tableau f1 i himem
          obtain ⟨c, hct, hsh⟩ := sweep_list_mem_top fc.tableau f1 i himem
          exact ⟨hlt, c, hct, should_imp_can f1 c hsh⟩
        have hinv0 : tab_ms fc.tableau + found_ms f1 + reserve_ms rs1 = full_deck := by
          unfold cards_of at hcards
          calc tab_ms fc.tableau + found_ms f1 + reserve_ms rs1
              = (reserve_ms rs1 + found_ms f1) + tab_ms fc.tableau := by abel
            _ = (reserve_ms fc.reserve + found_ms fc.foundation) + tab_ms fc.tableau := by
                rw [hms]
            _ = full_deck := hcards
        obtain ⟨t1, t2, t3, t4⟩ := sweep_tab_inv ((sweep_list fc.tableau f1).take left)
          fc.tableau f1 (reserve_ms rs1) hswnd hswv hok1 hf1 hinv0
        rw [← hfc]
        refine ⟨?_, t2, ?_, t3, ?_⟩
        · show reserve_ms rs1
            + found_ms (sweep_tab fc.tableau f1 ((sweep_list fc.tableau f1).take left)).2
            + tab_ms (sweep_tab fc.tableau f1 ((sweep_list fc.tableau f1).take left)).1
            = full_deck
          calc reserve_ms rs1
              + found_ms (sweep_tab fc.tableau f1 ((sweep_list fc.tableau f1).take left)).2
              + tab_ms (sweep_tab fc.tableau f1 ((sweep_list fc.tableau f1).take left)).1
              = tab_ms (sweep_tab fc.tableau f1 ((sweep_list fc.tableau f1).take left)).1
                + found_ms (sweep_tab fc.tableau f1
                    ((sweep_list fc.tableau f1).take left)).2
                + reserve_ms rs1 := by abel
            _ = full_deck := t1
        · show rs1.length = 4
          rw [hrs1]
          exact hr
        · show (sweep_tab fc.tableau f1 ((sweep_list fc.tableau f1).take left)).1.length = 8
          rw [t4]
          exact ht
      · rw [if_neg hz] at hs2
        simp only [Option.some.injEq, Prod.mk.injEq] at hs2
        obtain ⟨hfc, _⟩ := hs2
        rw [← hfc]
        refine ⟨?_, hok1, ?_, hf1, ht⟩
        · show reserve_ms rs1 + found_ms f1 + tab_ms fc.tableau = full_deck
          unfold cards_of at hcards
          rw [hms]
          exact hcards
        · show rs1.length = 4
          rw [hrs1]
          exact hr

/-- The session invariant: the live board and every snapshot in the undo
log satisfy the board invariant, and the cursor is at the log's end or at
least two below it. -/
def game_inv (g : GameState) : Prop :=
  board_inv g.fc ∧ (∀ s ∈ g.undo_log, board_inv s) ∧
    (g.undo_index = g.undo_log.length ∨ g.undo_index + 2 ≤ g.undo_log.length)

theorem game_inv_do_move (g : GameState) (m : FreeCell → FreeCell)
    (hg : game_inv g) (hm : board_inv (m g.fc)) : game_inv (do_move g m) := by
  obtain ⟨h1, h2, _⟩ := hg
  refine ⟨hm, ?_, Or.inl rfl⟩
  intro s hs
  rcases List.mem_append.mp hs with h | h
  · exact h2 s (List.mem_of_mem_take h)
  · rw [List.mem_singleton] at h
    rw [h]
    exact h1

theorem game_inv_undo (g : GameState) (hg : game_inv g) : game_inv (undo_step g) := by
  obtain ⟨h1, h2, h3⟩ := hg
  unfold undo_step
  by_cases he : g.undo_log.isEmpty = true
  · rw [if_pos he]
    exact ⟨h1, h2, h3⟩
  · rw [if_neg he]
    by_cases h0 : g.undo_index = 0
    · rw [if_pos h0]
      exact ⟨h1, h2, h3⟩
    · rw [if_neg h0]
      have hnil : g.undo_log ≠ [] := fun h => he (List.isEmpty_iff.mpr h)
      have hlpos : 0 < g.undo_log.length := List.length_pos.mpr hnil
      by_cases hend : g.undo_index = g.undo_log.length
      · rw [if_pos hend]
        refine ⟨?_, ?_, ?_⟩
        · exact h2 _ (getD_mem _ _ _ (by omega))
        · intro s hs
          rcases List.mem_append.mp hs with h | h
          · exact h2 s h
          · rw [List.mem_singleton] at h
            rw [h]
            exact h1
        · right
          show g.undo_index - 1 + 2 ≤ (g.undo_log ++ [g.fc]).length
          rw [List.length_append, List.length_singleton]
          omega
      · rw [if_neg hend]
        have hidx : g.undo_index + 2 ≤ g.undo_log.length := by
          rcases h3 with h | h
          · exact absurd h hend
          · exact h
        exact ⟨h2 _ (getD_mem _ _ _ (by omega)), h2,
          Or.inr (show g.undo_index - 1 + 2 ≤ g.undo_log.length by omega)⟩

theorem game_inv_redo (g : GameState) (hg : game_inv g) : game_inv (redo_step g) := by
  obtain ⟨h1, h2, h3⟩ := hg
  unfold redo_step redo_full
  by_cases he : g.undo_log.isEmpty = true
  · rw [if_pos he]
    exact ⟨h1, h2, h3⟩
  · rw [if_neg he]
    by_cases hend : g.undo_index = g.undo_log.length
    · rw [if_pos hend]
      exact ⟨h1, h2, h3⟩
    · rw [if_neg hend]
      have hnil : g.undo_log ≠ [] := fun h => he (List.isEmpty_iff.mpr h)
      have hidx : g.undo_index + 2 ≤ g.undo_log.length := by
        rcases h3 with h | h
        · exact absurd h hend
        · exact h
      by_cases hpop : g.undo_index = g.undo_log.length - 2
      · rw [if_pos hpop]
        refine ⟨?_, ?_, ?_⟩
        · rw [getLastD_eq_getD]
          exact h2 _ (getD_mem _ _ _ (by omega))
        · intro s hs
          exact h2 s (List.dropLast_subset _ hs)
        · left
          show g.undo_index + 1 = g.undo_log.dropLast.length
          rw [List.length_dropLast]
          omega
      · rw [if_neg hpop]
        exact ⟨h2 _ (getD_mem _ _ _ (by omega)), h2,
          Or.inr (show g.undo_index + 1 + 2 ≤ g.undo_log.length by omega)⟩

/-- Dealing a deck round-robin puts exactly the deck's cards on the
tableau. -/
theorem deal_round_ms : ∀ (cs : List Card) (t : List (List Card)) (i : Nat),
    t.length = 8 →
    tab_ms (deal_round t cs i) = tab_ms t + ↑cs ∧ (deal_round t cs i).length = 8
  | [], t, i, hlen => by
      constructor
      · show tab_ms t = tab_ms t + ↑([] : List Card)
        simp
      · exact hlen
  | c :: cs, t, i, hlen => by
      have hlt : i % 8 < t.length := by
        rw [hlen]
        exact Nat.mod_lt _ (by omega)
      have hadd := tab_ms_add t (i % 8) c hlt
      obtain ⟨ih1, ih2⟩ := deal_round_ms cs (t.set (i % 8) ((t.getD (i % 8) []) ++ [c]))
        (i + 1) (by rw [List.length_set]; exact hlen)
      constructor
      · show tab_ms (deal_round (t.set (i % 8) ((t.getD (i % 8) []) ++ [c])) cs (i + 1))
          = tab_ms t + ↑(c :: cs)
        rw [ih1, hadd]
        rw [show (↑(c :: cs) : Multiset Card) = {c} + ↑cs from by
          rw [← Multiset.cons_coe, ← Multiset.singleton_add]]
        abel
      · exact ih2

/-- A freshly dealt board satisfies the invariant. -/
theorem board_inv_new (deck : List Card) (hp : deck.Perm full_deck_list) :
    board_inv (FreeCell.new deck) := by
  obtain ⟨h1, h2⟩ := deal_round_ms deck (List.replicate 8 []) 0 (by simp)
  refine ⟨?_, ?_, rfl, rfl, h2⟩
  · show reserve_ms (List.replicate 4 none) + found_ms (List.replicate 4 none)
      + tab_ms (fill_tableau deck) = full_deck
    have hr0 : reserve_ms (List.replicate 4 none) = 0 := by decide
    have hf0 : found_ms (List.replicate 4 none) = 0 := by decide
    rw [hr0, hf0, zero_add, zero_add]
    show tab_ms (deal_round (List.replicate 8 []) deck 0) = full_deck
    rw [h1]
    have ht0 : tab_ms (List.replicate 8 ([] : List Card)) = 0 := by decide
    rw [ht0, zero_add]
    exact Multiset.coe_eq_coe.mpr hp
  · intro i c h
    exfalso
    have hrep : (List.replicate 4 (none : Option Card)).getD i none = none := by
      rw [List.getD_eq_getElem?_getD]
      cases h4 : (List.replicate 4 (none : Option Card))[i]? with
      | none => rfl
      | some x =>
          rw [List.eq_of_mem_replicate (List.getElem?_mem h4)]
          rfl
    have h' : (List.replicate 4 (none : Option Card)).getD i none = some c := h
    rw [hrep] at h'
    exact Option.noConfusion h'

theorem game_inv_reach : ∀ (g : GameState), Reach g → game_inv g := by
  intro g h
  induction h with
  | init deck hp => exact ⟨board_inv_new deck hp, by simp, Or.inl rfl⟩
  | res_found g n c hg hn hc hm ih =>
      exact game_inv_do_move _ _ ih (inv_res_to_found g.fc n c ih.1 hn hc hm)
  | res_tab g n p c hg hn hp hc hm ih =>
      exact game_inv_do_move _ _ ih (inv_res_to_tab g.fc n p c ih.1 hn hp hc)
  | tab_found g a c hg ha hc hm ih =>
      exact game_inv_do_move _ _ ih (inv_tab_to_found g.fc a c ih.1 ha hc hm)
  | tab_res g a c hg ha hc hf ih =>
      exact game_inv_do_move _ _ ih (inv_tab_to_res g.fc a c ih.1 ha hc hf)
  | tab_move g a b n hg ha hb hab h1 h2 ih =>
      exact game_inv_do_move _ _ ih (inv_tab_move g.fc a b n ih.1 ha hb hab)
  | sweep g b' r hg hs ih =>
      exact ⟨inv_sweep g.fc b' 3 r ih.1 hs, ih.2.1, ih.2.2⟩
  | undo g hg ih => exact game_inv_undo g ih
  | redo g hg ih => exact game_inv_redo g ih

/-- **C1.** At every session state reachable from a freshly dealt board by
the engine's operations (single-card moves, group moves, sweep steps, undo
and redo), the reserve cards, the tableau cards, and the foundations —
each non-empty foundation slot read as the full pile of its suit from the
Ace up to its top card — together form exactly the 52 standard cards. -/
theorem reach_card_conservation (g : GameState) (h : Reach g) :
    cards_of g.fc = full_deck :=
  (game_inv_reach g h).1.1

/-- Witness for C1 at the concrete identity deal. -/
theorem reach_card_conservation_witness :
    cards_of (FreeCell.new full_deck_list) = full_deck :=
  reach_card_conservation ⟨FreeCell.new full_deck_list, [], 0⟩
    (Reach.init full_deck_list (List.Perm.refl full_deck_list))
